import Mathlib

set_option maxHeartbeats 1000000
set_option maxRecDepth 8000

namespace Gepick

/-!
Verification development for the gepick tree core and decoration services
(packages/core/src/browser/tree/base-tree/tree-model.ts,
packages/core/src/browser/services/decorations-service.ts,
packages/core/src/browser/tree/source-tree/source-tree.ts).
Each section embeds one part of the source; theorems at the end settle the
spec claims against these embeddings.
-/

/-! ## Busy marking: TreeImpl.doSetBusy / doResetBusy / doMarkAsBusy

A tree node's `busy?: number` field, modelled as `Option Int` (`none` is the
JS `undefined`).  The source reads it as `node.busy || 0`, which maps both
`undefined` and `0` to `0` and keeps every other number; for `Option Int`
that is exactly `Option.getD 0` (JS `0 || 0 = 0`). -/

structure BusyState where
  busy : Option Int := none
  deriving Repr, DecidableEq

/-- TreeImpl.doSetBusy: `const oldBusy = node.busy || 0; node.busy = oldBusy + 1;
if (oldBusy === 0) fire;`.  Returns the updated node and whether
`onDidChangeBusy` fired. -/
def doSetBusy (n : BusyState) : BusyState × Bool :=
  let oldBusy := n.busy.getD 0
  ({ busy := some (oldBusy + 1) }, oldBusy == 0)

/-- TreeImpl.doResetBusy: `const oldBusy = node.busy || 0; if (oldBusy > 0) {
node.busy = oldBusy - 1; if (node.busy === 0) fire; }`. -/
def doResetBusy (n : BusyState) : BusyState × Bool :=
  let oldBusy := n.busy.getD 0
  if 0 < oldBusy then
    ({ busy := some (oldBusy - 1) }, (oldBusy - 1) == 0)
  else (n, false)

/-- One scheduled effect of a `doMarkAsBusy` call: `true` is the timeout
elapsing un-cancelled (doSetBusy), `false` is the token's cancellation
handler (doResetBusy). -/
def busyStep (n : BusyState) (isSet : Bool) : BusyState × Bool :=
  if isSet then doSetBusy n else doResetBusy n

/-- Log of one busy event: which effect ran, the ref-count before and after,
and whether `onDidChangeBusy` fired. -/
structure BusyStepLog where
  isSet : Bool
  oldCount : Int
  newCount : Int
  fired : Bool
  deriving Repr, DecidableEq

/-- Run a sequence of busy effects against a node, logging every step. -/
def busyTrace (n : BusyState) : List Bool → List BusyStepLog
  | [] => []
  | e :: es =>
    let r := busyStep n e
    ⟨e, n.busy.getD 0, r.1.busy.getD 0, r.2⟩ :: busyTrace r.1 es

/-- A single `doMarkAsBusy(node, ms, token)` marker: it schedules doSetBusy at
time `ms`, unless the token is cancelled first; the cancellation handler runs
doResetBusy at the cancellation time (`timeout` rejects, so a cancellation
before `ms` also suppresses the doSetBusy). -/
structure BusyMarker where
  ms : Nat
  cancelAt : Option Nat
  deriving Repr, DecidableEq

/-- The timed effects one marker contributes, in chronological order. -/
def BusyMarker.events (m : BusyMarker) : List (Nat × Bool) :=
  match m.cancelAt with
  | none => [(m.ms, true)]
  | some t => if t ≤ m.ms then [(t, false)] else [(m.ms, true), (t, false)]

/-- Insert a timed effect into a chronologically sorted effect list (an
earlier timer fires first; on a tie the inserted one runs first). -/
def insertByTime (x : Nat × Bool) : List (Nat × Bool) → List (Nat × Bool)
  | [] => [x]
  | y :: ys => if x.1 ≤ y.1 then x :: y :: ys else y :: insertByTime x ys

/-- Chronological merge of two markers' timed effects (the event loop runs
whichever timer fires first). -/
def mergeByTime (xs ys : List (Nat × Bool)) : List (Nat × Bool) :=
  xs.foldr insertByTime ys

/-- Step-wise facts about one busy effect from a non-negative count. -/
theorem busyStep_facts (n : BusyState) (e : Bool) (h : 0 ≤ n.busy.getD 0) :
    0 ≤ (busyStep n e).1.busy.getD 0 ∧
    (e = true → (busyStep n e).1.busy.getD 0 = n.busy.getD 0 + 1) ∧
    (e = false → (0 < n.busy.getD 0 → (busyStep n e).1.busy.getD 0 = n.busy.getD 0 - 1) ∧
      (n.busy.getD 0 = 0 → (busyStep n e).1.busy.getD 0 = 0)) ∧
    ((busyStep n e).2 = true ↔
      (n.busy.getD 0 = 0 ∧ (busyStep n e).1.busy.getD 0 ≠ 0) ∨
      (n.busy.getD 0 ≠ 0 ∧ (busyStep n e).1.busy.getD 0 = 0)) := by
  cases e with
  | true =>
    simp only [busyStep, doSetBusy, if_true]
    constructor
    · simp; omega
    refine ⟨fun _ => by simp, fun hf => by simp at hf, ?_⟩
    simp only [beq_iff_eq, Option.getD_some]
    constructor
    · intro h0; left; exact ⟨h0, by omega⟩
    · rintro (⟨h0, _⟩ | ⟨hne, hz⟩)
      · exact h0
      · exfalso; omega
  | false =>
    simp only [busyStep, doResetBusy, if_false, Bool.false_eq_true]
    by_cases hp : 0 < n.busy.getD 0
    · simp only [if_pos hp]
      refine ⟨by simp; omega, fun he => by simp at he, fun _ => ⟨fun _ => by simp, fun h0 => by omega⟩, ?_⟩
      simp only [beq_iff_eq, Option.getD_some]
      constructor
      · intro h0; right; exact ⟨by omega, h0⟩
      · rintro (⟨h0, _⟩ | ⟨_, hz⟩)
        · omega
        · exact hz
    · simp only [if_neg hp]
      refine ⟨h, fun he => by simp at he, fun _ => ⟨fun hc => absurd hc hp, fun _ => by omega⟩, ?_⟩
      constructor
      · intro hf; exact absurd hf (by simp)
      · rintro (⟨h0, hne⟩ | ⟨hne, h0⟩) <;> exact absurd h0 hne

/-- Trace-level busy ref-count facts, by induction on the event list. -/
theorem busyTrace_facts (es : List Bool) (n : BusyState) (h : 0 ≤ n.busy.getD 0) :
    ∀ l ∈ busyTrace n es,
      0 ≤ l.oldCount ∧ 0 ≤ l.newCount ∧
      (l.isSet = true → l.newCount = l.oldCount + 1) ∧
      (l.isSet = false → (0 < l.oldCount → l.newCount = l.oldCount - 1) ∧
        (l.oldCount = 0 → l.newCount = 0)) ∧
      (l.fired = true ↔ (l.oldCount = 0 ∧ l.newCount ≠ 0) ∨ (l.oldCount ≠ 0 ∧ l.newCount = 0)) := by
  induction es generalizing n with
  | nil => intro l hl; simp [busyTrace] at hl
  | cons e es ih =>
    intro l hl
    obtain ⟨hnn, hset, hreset, hfire⟩ := busyStep_facts n e h
    simp only [busyTrace, List.mem_cons] at hl
    rcases hl with hl | hl
    · subst hl
      exact ⟨h, hnn, hset, hreset, hfire⟩
    · exact ih _ hnn l hl

/-- C4 (busy ref-counting): `busy` is a non-negative reference count, never a
boolean and never negative: a timeout elapsing un-cancelled increments it,
cancellation decrements it (never below zero), `onDidChangeBusy` fires only
on transitions between zero and non-zero; and with marker A succeeding after
800ms (cancelled at 1600ms) and marker B cancelled at 400ms, the node is busy
exactly for A's duration and the only fired events are the 0→1 transition at
800ms and the 1→0 transition when A is cancelled. -/
theorem busy_refcounting (es : List Bool) (n0 : BusyState) (h : 0 ≤ n0.busy.getD 0) :
    (∀ l ∈ busyTrace n0 es,
      0 ≤ l.oldCount ∧ 0 ≤ l.newCount ∧
      (l.isSet = true → l.newCount = l.oldCount + 1) ∧
      (l.isSet = false → (0 < l.oldCount → l.newCount = l.oldCount - 1) ∧
        (l.oldCount = 0 → l.newCount = 0)) ∧
      (l.fired = true ↔ (l.oldCount = 0 ∧ l.newCount ≠ 0) ∨ (l.oldCount ≠ 0 ∧ l.newCount = 0))) ∧
    busyTrace ⟨none⟩
        ((mergeByTime (BusyMarker.events ⟨800, some 1600⟩) (BusyMarker.events ⟨800, some 400⟩)).map
          Prod.snd) =
      [⟨false, 0, 0, false⟩, ⟨true, 0, 1, true⟩, ⟨false, 1, 0, true⟩] :=
  ⟨busyTrace_facts es n0 h, by decide⟩

theorem busy_refcounting_witness :
    0 ≤ (BusyState.mk none).busy.getD 0 ∧
      ∀ l ∈ busyTrace ⟨none⟩ [true, false], 0 ≤ l.newCount :=
  ⟨by decide, fun l hl => ((busy_refcounting [true, false] ⟨none⟩ (by decide)).1 l hl).2.1⟩

/-! ## Tree nodes and iterator-based navigation
(TreeModelImpl in packages/core/src/browser/tree/base-tree/tree-model.ts)

A node as far as navigation is concerned: `visible?: boolean` (undefined
means rendered), the presence of a `selected` property (SelectableTreeNode.is
checks `'selected' in node`), and `expanded?: boolean` whose presence marks
an expandable node. -/

structure TNode where
  nid : Nat
  visible : Option Bool := none
  selectable : Bool := false
  expanded : Option Bool := none
  deriving Repr, DecidableEq

/-- TreeNode.isVisible: `node.visible === undefined || node.visible`. -/
def TNode.isVisibleNode (n : TNode) : Bool := n.visible.getD true

/-- TreeModelImpl.isVisibleSelectableNode = SelectableTreeNode.isVisible:
`SelectableTreeNode.is(node) && TreeNode.isVisible(node)`. -/
def isVisibleSelectableNode (n : TNode) : Bool := n.selectable && n.isVisibleNode

/-- One `next()` call on an iterator, modelled on its remaining yield
sequence: returns the yielded value (none when done) and the rest. -/
def iterNext : List TNode → Option TNode × List TNode
  | [] => (none, [])
  | x :: xs => (some x, xs)

/-- TreeModelImpl.doGetNode: `iterator.next(); const result = iterator.next();
return result.done ? undefined : result.value;`. -/
def doGetNode (it : List TNode) : Option TNode :=
  let s1 := iterNext it
  (iterNext s1.2).1

/-- The `while (!result.done)` loop of TreeModelImpl.doGetNextNode: return the
first yielded node satisfying the criterion. -/
def findLoop (criterion : TNode → Bool) : List TNode → Option TNode
  | [] => none
  | x :: xs => if criterion x then some x else findLoop criterion xs

/-- TreeModelImpl.doGetNextNode: `iterator.next();` (skip the first item) then
scan for the first node satisfying the criterion. -/
def doGetNextNode (criterion : TNode → Bool) (it : List TNode) : Option TNode :=
  findLoop criterion (iterNext it).2

mutual
inductive VTree : Type where
  | node : TNode → VForest → VTree
  deriving Repr, DecidableEq
inductive VForest : Type where
  | vnil : VForest
  | vcons : VTree → VForest → VForest
  deriving Repr, DecidableEq
end

mutual
/-- Modelled from the spec: tree-iterator.ts (TopDownTreeIterator) is not under
src/.  Spec §4.1: top-down (pre-order) traversal visits a node, then
recursively its children in array order; with `pruneCollapsed: true` an
expandable node that is not expanded is visited but its children are skipped
(here: `expanded` present and false; a node without the `expanded` property is
not expandable and its children are always visited). -/
def VTree.preorder (pruneCollapsed : Bool) : VTree → List TNode
  | .node n cs =>
    n :: (if pruneCollapsed && n.expanded == some false then []
          else VForest.preorderF pruneCollapsed cs)
/-- Pre-order traversal of a forest, children in array order. -/
def VForest.preorderF (pruneCollapsed : Bool) : VForest → List TNode
  | .vnil => []
  | .vcons t ts => VTree.preorder pruneCollapsed t ++ VForest.preorderF pruneCollapsed ts
end

/-- TreeModelImpl.getNextSelectableNode with no focused node: the node
defaults to `this.root`; with no active filter, createIterator builds
`TopDownTreeIterator(node, { pruneCollapsed: true })` and the result is
`doGetNextNode(iterator, isVisibleSelectableNode)`; `undefined` when there is
no root (`createIterator(undefined)` yields no iterator). -/
def getNextSelectableFromRoot (root : Option VTree) : Option TNode :=
  match root with
  | none => none
  | some t => doGetNextNode isVisibleSelectableNode (t.preorder true)

/-- TreeModelImpl.getPrevSelectableNode with no focused node:
`if (!node) { return this.getNextSelectableNode(this.root); }`. -/
def getPrevSelectableNoFocus (root : Option VTree) : Option TNode :=
  getNextSelectableFromRoot root

/-- Modelled from the spec: the claim's "symmetric fallback for prev".  The
mirror of "the root's first visible selectable descendant" is the root's last
visible selectable descendant (first hit of the reversed descendant
sequence). -/
def symmetricPrevFallback (root : Option VTree) : Option TNode :=
  match root with
  | none => none
  | some t => ((t.preorder true).drop 1).reverse.find? isVisibleSelectableNode

/-- Two visible selectable leaves under a visible selectable root. -/
def cexNavTree : VTree :=
  .node ⟨0, none, true, none⟩
    (.vcons (.node ⟨1, none, true, none⟩ .vnil)
      (.vcons (.node ⟨2, none, true, none⟩ .vnil) .vnil))

/-- C5 counterexample: with two selectable visible children under the root,
the unfocused `getPrevSelectableNode` yields the root's FIRST visible
selectable descendant (it delegates to `getNextSelectableNode(this.root)`),
not the symmetric ("prev") counterpart, which would be the last one. -/
theorem skip_one_symmetric_fallback_cex :
    getPrevSelectableNoFocus (some cexNavTree) ≠ symmetricPrevFallback (some cexNavTree) := by
  decide

theorem findLoop_eq_find (criterion : TNode → Bool) (xs : List TNode) :
    findLoop criterion xs = xs.find? criterion := by
  induction xs with
  | nil => rfl
  | cons x xs ih =>
    by_cases h : criterion x <;> simp [findLoop, List.find?_cons, h, ih]

/-- C5 (amended): `getNextNode`/`getPrevNode` consume and discard exactly one
element of the underlying iterator before returning the next yielded node
(`undefined` when the iterator is exhausted after the skip); the selectable
variants skip the first element the same way; with no focused node,
`getNextSelectableNode` falls back to the root's first visible selectable
descendant, and `getPrevSelectableNode` uses that same forward fallback
(delegating to `getNextSelectableNode(this.root)`), not a mirrored one. -/
theorem skip_one_navigation (x : TNode) (xs : List TNode) (criterion : TNode → Bool)
    (n : TNode) (f : VForest) :
    doGetNode (x :: xs) = xs.head? ∧
    doGetNode [] = none ∧
    doGetNextNode criterion (x :: xs) = xs.find? criterion ∧
    doGetNextNode criterion [] = none ∧
    getNextSelectableFromRoot (some (.node n f)) =
      ((VTree.preorder true (.node n f)).drop 1).find? isVisibleSelectableNode ∧
    (VTree.preorder true (.node n f)).drop 1 =
      (if n.expanded == some false then [] else f.preorderF true) ∧
    getPrevSelectableNoFocus (some (.node n f)) =
      getNextSelectableFromRoot (some (.node n f)) := by
  refine ⟨?_, rfl, findLoop_eq_find criterion xs, rfl, ?_, ?_, rfl⟩
  · cases xs <;> rfl
  · simp only [getNextSelectableFromRoot, doGetNextNode, VTree.preorder, iterNext,
      List.drop_one, List.tail_cons]
    exact findLoop_eq_find _ _
  · simp [VTree.preorder]

/-! ## Decorations service
(packages/core/src/browser/services/decorations-service.ts)

URIs are modelled as lists of path segments.  The per-provider cache
(`TernarySearchTree.forUris`) is not under src/; modelled from the spec
(§2, §4.7): a prefix tree over URI path segments mapping a URI to its
decoration state, supporting exact lookup, removal, and iteration over the
entries stored strictly below a URI (`findSuperstr`).  Here it is an
association list with those operations. -/

structure Decoration where
  weight : Option Nat := none
  letter : Option String := none
  bubble : Option Bool := none
  deriving Repr, DecidableEq

abbrev Uri := List String

/-- A cache slot: a pending `DecorationDataRequest` (identified by the ghost
id of its cancellation token source) or a resolved decoration.  A slot
holding the JS value `undefined` behaves like an absent slot for `get` and
`findSuperstr`, so it is modelled as absence. -/
inductive CacheEntry where
  | request (rid : Nat)
  | resolved (d : Decoration)
  deriving Repr, DecidableEq

abbrev DecoCache := List (Uri × CacheEntry)

def cacheGet : DecoCache → Uri → Option CacheEntry
  | [], _ => none
  | e :: c, u => if e.1 = u then some e.2 else cacheGet c u

def cacheDelete : DecoCache → Uri → DecoCache
  | [], _ => []
  | e :: c, u => if e.1 = u then cacheDelete c u else e :: cacheDelete c u

def cacheSet (c : DecoCache) (u : Uri) (v : CacheEntry) : DecoCache :=
  (u, v) :: cacheDelete c u

/-- Is `k` strictly below `u` (a proper descendant URI)? -/
def strictDescendantOf (k u : Uri) : Bool :=
  (k.take u.length == u) && (u.length < k.length)

/-- Modelled from the spec: `this.data.findSuperstr(uri)` iterates the values
stored strictly below `uri` in the prefix tree. -/
def findSuperstr (c : DecoCache) (u : Uri) : List CacheEntry :=
  (c.filter (fun e => strictDescendantOf e.1 u)).map (·.2)

/-- What `provideDecorations(uri, token)` returns for a URI: a synchronous
`Decoration | undefined`, or a thenable (resolved/rejected later by an
`opResolve`/`opReject` event). -/
inductive ProviderResp where
  | syncRes (d : Option Decoration)
  | asyncRes

/-- One DecorationProviderWrapper.  `inflight` is ghost bookkeeping of the
asynchronous `provideDecorations` calls that have been issued and not yet
settled: (request id, uri, whether its CancellationTokenSource was
cancelled).  `nextReqId` makes request identity explicit (the source compares
`DecorationDataRequest` objects by reference). -/
structure WrapperState where
  provider : Uri → ProviderResp
  cache : DecoCache := []
  nextReqId : Nat := 0
  inflight : List (Nat × Uri × Bool) := []

/-- DecorationProviderWrapper.keepItem: `const deco = data || undefined;
this.data.set(uri, deco); return deco;` (storing `undefined` = absence). -/
def keepItem (c : DecoCache) (u : Uri) (d : Option Decoration) : DecoCache :=
  match d with
  | some d => cacheSet c u (.resolved d)
  | none => cacheDelete c u

/-- First stage of DecorationProviderWrapper.fetchData: `// check for pending
request and cancel it` — when the cache holds a request marker for the URI,
cancel that request's token source (ghost flag) and delete the marker. -/
def cancelPending (w : WrapperState) (u : Uri) : WrapperState :=
  match cacheGet w.cache u with
  | some (.request rid) =>
    { w with cache := cacheDelete w.cache u,
             inflight := w.inflight.map fun (e : Nat × Uri × Bool) =>
               if e.1 == rid then (e.1, e.2.1, true) else e }
  | _ => w

/-- DecorationProviderWrapper.fetchData: cancel and unmark a pending request
for this URI, then call `provideDecorations`; a synchronous result is kept
immediately and returned, a thenable installs a fresh request marker and
returns `undefined`. -/
def fetchData (w : WrapperState) (u : Uri) : Option Decoration × WrapperState :=
  let w := cancelPending w u
  match w.provider u with
  | .syncRes d => (d, { w with cache := keepItem w.cache u d })
  | .asyncRes =>
    (none, { w with cache := cacheSet w.cache u (.request w.nextReqId),
                    inflight := (w.nextReqId, u, false) :: w.inflight,
                    nextReqId := w.nextReqId + 1 })

/-- The `.then` continuation of an asynchronous provideDecorations call:
`if (this.data.get(uri) === request) { this.keepItem(uri, data); }` — the
result is committed only when this request's marker is still current. -/
def resolveReq (w : WrapperState) (u : Uri) (rid : Nat) (d : Option Decoration) : WrapperState :=
  let w1 := { w with inflight := w.inflight.filter fun e => e.1 != rid }
  if cacheGet w.cache u == some (.request rid) then
    { w1 with cache := keepItem w1.cache u d }
  else w1

/-- The `.catch` continuation: a cancellation-shaped error (an `Error` whose
name and message are both the string Canceled) is swallowed; any other
rejection deletes the cache entry when this request is still current. -/
def rejectReq (w : WrapperState) (u : Uri) (rid : Nat) (canceledShaped : Bool) : WrapperState :=
  let w1 := { w with inflight := w.inflight.filter fun e => e.1 != rid }
  if !canceledShaped && cacheGet w.cache u == some (.request rid) then
    { w1 with cache := cacheDelete w1.cache u }
  else w1

/-- The child emissions of getOrRetrieve: every resolved decoration strictly
below the URI, tagged `isChild = true` (the `findSuperstr` loop). -/
def childsOf (c : DecoCache) (u : Uri) : List (Decoration × Bool) :=
  (findSuperstr c u).filterMap fun e =>
    match e with
    | .resolved d => some (d, true)
    | _ => none

/-- DecorationProviderWrapper.getOrRetrieve: look the URI up (a miss triggers
fetchData, whose synchronous result stands in for the item); emit the item
when it is a resolved decoration (`callback(item, false)`); when
`includeChildren`, also emit every resolved decoration strictly below the URI
(`callback(value, true)`). -/
def getOrRetrieve (w : WrapperState) (u : Uri) (includeChildren : Bool) :
    List (Decoration × Bool) × WrapperState :=
  let s : Option CacheEntry × WrapperState :=
    match cacheGet w.cache u with
    | none =>
      let r := fetchData w u
      (r.1.map .resolved, r.2)
    | some e => (some e, w)
  let own : List (Decoration × Bool) :=
    match s.1 with
    | some (.resolved d) => [(d, false)]
    | _ => []
  let childs : List (Decoration × Bool) :=
    if includeChildren then childsOf s.2.cache u else []
  (own ++ childs, s.2)

/-- DecorationsServiceImpl.getDecoration: query every provider wrapper,
keeping a decoration when it is for the URI itself or, for a child, opts in
via a truthy `bubble`. -/
def getDecoration (ws : List WrapperState) (u : Uri) (includeChildren : Bool) :
    List Decoration × List WrapperState :=
  match ws with
  | [] => ([], [])
  | w :: rest =>
    let r := getOrRetrieve w u includeChildren
    let kept := (r.1.filter fun p => !p.2 || p.1.bubble == some true).map (·.1)
    let rr := getDecoration rest u includeChildren
    (kept ++ rr.1, r.2 :: rr.2)

/-- Interleaving events touching one wrapper: a getDecoration-triggered
getOrRetrieve, a direct re-fetch (the provider's onDidChange path), and the
settlement of an issued asynchronous request. -/
inductive DecoOp where
  | opRetrieve (u : Uri) (includeChildren : Bool)
  | opFetch (u : Uri)
  | opResolve (u : Uri) (rid : Nat) (d : Option Decoration)
  | opReject (u : Uri) (rid : Nat) (canceledShaped : Bool)

def applyDecoOp (w : WrapperState) : DecoOp → WrapperState
  | .opRetrieve u ic => (getOrRetrieve w u ic).2
  | .opFetch u => (fetchData w u).2
  | .opResolve u rid d => resolveReq w u rid d
  | .opReject u rid c => rejectReq w u rid c

def runDecoOps (w : WrapperState) : List DecoOp → WrapperState
  | [] => w
  | op :: ops => runDecoOps (applyDecoOp w op) ops

/-- The ids of the issued, un-settled, un-cancelled `provideDecorations`
requests for a URI. -/
def pendingFor (w : WrapperState) (u : Uri) : List Nat :=
  (w.inflight.filter fun e => e.2.1 == u && e.2.2 == false).map (·.1)

/-- Wrapper-state invariant: issued request ids are below the id counter and
distinct, every un-cancelled in-flight request is the cache's current marker
for its URI, and every cached marker id is below the counter. -/
def ReqInvariant (w : WrapperState) : Prop :=
  (∀ e ∈ w.inflight, e.1 < w.nextReqId) ∧
  (w.inflight.map (·.1)).Nodup ∧
  (∀ e ∈ w.inflight, e.2.2 = false → cacheGet w.cache e.2.1 = some (.request e.1)) ∧
  (∀ u rid, cacheGet w.cache u = some (.request rid) → rid < w.nextReqId)

theorem cacheGet_set (c : DecoCache) (u : Uri) (v : CacheEntry) :
    cacheGet (cacheSet c u v) u = some v := by
  simp [cacheGet, cacheSet]

theorem cacheGet_delete (c : DecoCache) (u : Uri) : cacheGet (cacheDelete c u) u = none := by
  induction c with
  | nil => rfl
  | cons e c ih =>
    by_cases h : e.1 = u
    · simpa [cacheDelete, h] using ih
    · simpa [cacheDelete, cacheGet, h] using ih

theorem cacheGet_delete_ne (c : DecoCache) (u u' : Uri) (h : u' ≠ u) :
    cacheGet (cacheDelete c u) u' = cacheGet c u' := by
  induction c with
  | nil => rfl
  | cons e c ih =>
    obtain ⟨k, v⟩ := e
    by_cases he : k = u
    · subst he
      simp [cacheDelete, cacheGet, Ne.symm h, ih]
    · by_cases hu : k = u'
      · subst hu
        simp [cacheDelete, cacheGet, he]
      · simp [cacheDelete, cacheGet, he, hu, ih]

theorem cacheGet_set_ne (c : DecoCache) (u u' : Uri) (v : CacheEntry) (h : u' ≠ u) :
    cacheGet (cacheSet c u v) u' = cacheGet c u' := by
  have : u ≠ u' := Ne.symm h
  simp only [cacheSet, cacheGet, if_neg this]
  exact cacheGet_delete_ne c u u' h

theorem keepItem_get (c : DecoCache) (u : Uri) (d : Option Decoration) :
    cacheGet (keepItem c u d) u = d.map CacheEntry.resolved := by
  cases d with
  | none => simpa [keepItem] using cacheGet_delete c u
  | some d => simpa [keepItem] using cacheGet_set c u (.resolved d)

theorem keepItem_get_ne (c : DecoCache) (u u' : Uri) (d : Option Decoration) (h : u' ≠ u) :
    cacheGet (keepItem c u d) u' = cacheGet c u' := by
  cases d with
  | none => exact cacheGet_delete_ne c u u' h
  | some d => exact cacheGet_set_ne c u u' _ h

theorem cacheGet_delete_of_some (c : DecoCache) (u u' : Uri) (x : CacheEntry)
    (h : cacheGet (cacheDelete c u) u' = some x) : cacheGet c u' = some x := by
  by_cases hu : u' = u
  · rw [hu, cacheGet_delete] at h; exact absurd h (by simp)
  · rwa [cacheGet_delete_ne c u u' hu] at h

/-- C8 (decoration provider failure policy): a provider rejection is handled
entirely inside the `.catch` continuation `rejectReq` (never rethrown to
`getDecoration` callers); a cancellation-shaped rejection leaves the cache
untouched; any other rejection deletes the cache entry exactly when this
request is still the current pending entry for the URI, and leaves the cache
untouched when it is stale. -/
theorem decoration_rejection_policy (w : WrapperState) (u : Uri) (rid : Nat) :
    (rejectReq w u rid true).cache = w.cache ∧
    (cacheGet w.cache u = some (.request rid) →
      (rejectReq w u rid false).cache = cacheDelete w.cache u ∧
      cacheGet (rejectReq w u rid false).cache u = none) ∧
    (cacheGet w.cache u ≠ some (.request rid) →
      (rejectReq w u rid false).cache = w.cache) := by
  refine ⟨rfl, ?_, ?_⟩
  · intro h
    have hc : (rejectReq w u rid false).cache = cacheDelete w.cache u := by
      simp [rejectReq, h]
    exact ⟨hc, by rw [hc]; exact cacheGet_delete w.cache u⟩
  · intro h
    have hb : (cacheGet w.cache u == some (CacheEntry.request rid)) = false := by
      simpa using h
    simp [rejectReq, hb]

/-- Wrapper with one pending request for URI a. -/
def cexRejectWrapper : WrapperState :=
  ⟨fun _ => .asyncRes, [(["a"], .request 0)], 1, [(0, ["a"], false)]⟩

theorem decoration_rejection_policy_witness :
    cacheGet cexRejectWrapper.cache ["a"] = some (.request 0) ∧
    (rejectReq cexRejectWrapper ["a"] 0 false).cache = cacheDelete cexRejectWrapper.cache ["a"] :=
  ⟨by decide, ((decoration_rejection_policy cexRejectWrapper ["a"] 0).2.1 (by decide)).1⟩


theorem map_fst_cancel (l : List (Nat × Uri × Bool)) (rid : Nat) :
    ((l.map fun (e : Nat × Uri × Bool) => if e.1 == rid then (e.1, e.2.1, true) else e).map (·.1)) =
      l.map (·.1) := by
  induction l with
  | nil => rfl
  | cons e l ih =>
    simp only [List.map_cons, ih, List.cons.injEq]
    refine ⟨?_, by trivial⟩
    by_cases hc : e.1 = rid <;> simp [hc]

/-- Facts about the fetchData cancel stage under the wrapper invariant. -/
theorem cancelPending_facts (w : WrapperState) (u : Uri) (h : ReqInvariant w) :
    ReqInvariant (cancelPending w u) ∧
    (cancelPending w u).nextReqId = w.nextReqId ∧
    (cancelPending w u).provider = w.provider ∧
    (∀ e ∈ (cancelPending w u).inflight, e.2.2 = false → e.2.1 ≠ u) ∧
    (∀ e ∈ (cancelPending w u).inflight, e.1 < w.nextReqId) ∧
    (∀ u' x, cacheGet (cancelPending w u).cache u' = some x → cacheGet w.cache u' = some x) := by
  obtain ⟨h1, h2, h3, h4⟩ := h
  rcases hm : cacheGet w.cache u with _ | entry
  · have hw : cancelPending w u = w := by simp [cancelPending, hm]
    rw [hw]
    refine ⟨⟨h1, h2, h3, h4⟩, rfl, rfl, ?_, h1, fun _ _ hx => hx⟩
    intro e he hf hu
    have := h3 e he hf
    rw [hu, hm] at this
    exact absurd this (by simp)
  · cases entry with
    | resolved d =>
      have hw : cancelPending w u = w := by simp [cancelPending, hm]
      rw [hw]
      refine ⟨⟨h1, h2, h3, h4⟩, rfl, rfl, ?_, h1, fun _ _ hx => hx⟩
      intro e he hf hu
      have := h3 e he hf
      rw [hu, hm] at this
      exact absurd this (by simp)
    | request rid =>
      have hw : cancelPending w u =
          { w with cache := cacheDelete w.cache u,
                   inflight := w.inflight.map fun (e : Nat × Uri × Bool) =>
                     if e.1 == rid then (e.1, e.2.1, true) else e } := by
        simp [cancelPending, hm]
      rw [hw]
      have hmem : ∀ e' ∈ (w.inflight.map fun (e : Nat × Uri × Bool) =>
          if e.1 == rid then (e.1, e.2.1, true) else e),
          ∃ e ∈ w.inflight, e' = (if e.1 == rid then (e.1, e.2.1, true) else e) := by
        intro e' he'
        simp only [List.mem_map] at he'
        obtain ⟨e, he, heq⟩ := he'
        exact ⟨e, he, heq.symm⟩
      have hfst : ∀ (e : Nat × Uri × Bool),
          ((if e.1 == rid then (e.1, e.2.1, true) else e) : Nat × Uri × Bool).1 = e.1 := by
        intro e; by_cases hc : e.1 = rid <;> simp [hc]
      have htail : ∀ (e : Nat × Uri × Bool),
          ((if e.1 == rid then (e.1, e.2.1, true) else e) : Nat × Uri × Bool).2.2 = false →
            e.1 ≠ rid ∧ e.2.2 = false ∧
              ((if e.1 == rid then (e.1, e.2.1, true) else e) : Nat × Uri × Bool) = e := by
        intro e hf
        by_cases hc : e.1 = rid
        · simp [hc] at hf
        · simp only [beq_iff_eq, if_neg hc] at hf ⊢
          exact ⟨hc, hf, by trivial⟩
      refine ⟨⟨?_, ?_, ?_, ?_⟩, rfl, rfl, ?_, ?_, ?_⟩
      · intro e' he'
        obtain ⟨e, he, heq⟩ := hmem e' he'
        rw [heq, hfst]
        exact h1 e he
      · rw [map_fst_cancel]
        exact h2
      · intro e' he' hf
        obtain ⟨e, he, heq⟩ := hmem e' he'
        rw [heq] at hf ⊢
        obtain ⟨hc, hf0, hee⟩ := htail e hf
        rw [hee]
        have h5 := h3 e he hf0
        by_cases hu : e.2.1 = u
        · exfalso
          rw [hu, hm] at h5
          simp only [Option.some.injEq, CacheEntry.request.injEq] at h5
          exact hc h5.symm
        · rw [cacheGet_delete_ne _ _ _ hu]
          exact h5
      · intro u' r hmk
        exact h4 u' r (cacheGet_delete_of_some _ _ _ _ hmk)
      · intro e' he' hf hu
        obtain ⟨e, he, heq⟩ := hmem e' he'
        rw [heq] at hf hu
        obtain ⟨hc, hf0, hee⟩ := htail e hf
        rw [hee] at hu
        have h5 := h3 e he hf0
        rw [hu, hm] at h5
        simp only [Option.some.injEq, CacheEntry.request.injEq] at h5
        exact hc h5.symm
      · intro e' he'
        obtain ⟨e, he, heq⟩ := hmem e' he'
        rw [heq, hfst]
        exact h1 e he
      · intro u' x hx
        exact cacheGet_delete_of_some _ _ _ _ hx

theorem fetchData_state_sync (w : WrapperState) (u : Uri) (d : Option Decoration)
    (hp : (cancelPending w u).provider u = .syncRes d) :
    (fetchData w u).2 =
      { cancelPending w u with cache := keepItem (cancelPending w u).cache u d } := by
  simp [fetchData, hp]

theorem fetchData_state_async (w : WrapperState) (u : Uri)
    (hp : (cancelPending w u).provider u = .asyncRes) :
    (fetchData w u).2 =
      { cancelPending w u with
          cache := cacheSet (cancelPending w u).cache u (.request (cancelPending w u).nextReqId),
          inflight := ((cancelPending w u).nextReqId, u, false) :: (cancelPending w u).inflight,
          nextReqId := (cancelPending w u).nextReqId + 1 } := by
  simp [fetchData, hp]

theorem fetchData_invariant (w : WrapperState) (u : Uri) (h : ReqInvariant w) :
    ReqInvariant (fetchData w u).2 := by
  obtain ⟨hinv, hnext, _, hflag, hbound, _⟩ := cancelPending_facts w u h
  obtain ⟨h1, h2, h3, h4⟩ := hinv
  rcases hp : (cancelPending w u).provider u with d | _
  · rw [fetchData_state_sync w u d hp]
    refine ⟨h1, h2, ?_, ?_⟩
    · intro e he hf
      have hne := hflag e he hf
      show cacheGet (keepItem (cancelPending w u).cache u d) e.2.1 = some (.request e.1)
      rw [keepItem_get_ne _ _ _ _ hne]
      exact h3 e he hf
    · intro u' rid hmk
      by_cases hu : u' = u
      · subst hu
        replace hmk : cacheGet (keepItem (cancelPending w u').cache u' d) u' =
            some (.request rid) := hmk
        rw [keepItem_get] at hmk
        cases d <;> simp at hmk
      · replace hmk : cacheGet (keepItem (cancelPending w u).cache u d) u' =
            some (.request rid) := hmk
        rw [keepItem_get_ne _ _ _ _ hu] at hmk
        exact h4 u' rid hmk
  · rw [fetchData_state_async w u hp]
    refine ⟨?_, ?_, ?_, ?_⟩
    · intro e he
      rcases List.mem_cons.mp he with he | he
      · rw [he]
        show (cancelPending w u).nextReqId < (cancelPending w u).nextReqId + 1
        omega
      · have := h1 e he
        show e.1 < (cancelPending w u).nextReqId + 1
        omega
    · show (((cancelPending w u).nextReqId, u, false) ::
        (cancelPending w u).inflight).map (·.1) |>.Nodup
      simp only [List.map_cons]
      refine List.nodup_cons.mpr ⟨?_, h2⟩
      intro hmem
      simp only [List.mem_map] at hmem
      obtain ⟨e, he, heq⟩ := hmem
      have := h1 e he
      omega
    · intro e he hf
      rcases List.mem_cons.mp he with he | he
      · rw [he]
        exact cacheGet_set (cancelPending w u).cache u (.request (cancelPending w u).nextReqId)
      · have hne := hflag e he hf
        show cacheGet (cacheSet (cancelPending w u).cache u _) e.2.1 = some (.request e.1)
        rw [cacheGet_set_ne _ _ _ _ hne]
        exact h3 e he hf
    · intro u' rid hmk
      show rid < (cancelPending w u).nextReqId + 1
      by_cases hu : u' = u
      · subst hu
        replace hmk : cacheGet (cacheSet (cancelPending w u').cache u'
            (.request (cancelPending w u').nextReqId)) u' = some (.request rid) := hmk
        rw [cacheGet_set] at hmk
        simp only [Option.some.injEq, CacheEntry.request.injEq] at hmk
        omega
      · replace hmk : cacheGet (cacheSet (cancelPending w u).cache u
            (.request (cancelPending w u).nextReqId)) u' = some (.request rid) := hmk
        rw [cacheGet_set_ne _ _ _ _ hu] at hmk
        have := h4 u' rid hmk
        omega

theorem resolveReq_invariant (w : WrapperState) (u : Uri) (rid : Nat) (d : Option Decoration)
    (h : ReqInvariant w) : ReqInvariant (resolveReq w u rid d) := by
  obtain ⟨h1, h2, h3, h4⟩ := h
  have hsub : ((w.inflight.filter fun e => e.1 != rid).map (·.1)).Sublist
      (w.inflight.map (·.1)) := (List.filter_sublist _).map _
  simp only [resolveReq]
  by_cases hc : cacheGet w.cache u = some (.request rid)
  · rw [if_pos (by simp [hc])]
    refine ⟨?_, h2.sublist hsub, ?_, ?_⟩
    · intro e he
      exact h1 e (List.mem_of_mem_filter he)
    · intro e he hf
      have hmem := List.mem_of_mem_filter he
      have hne : e.1 ≠ rid := by simpa using List.of_mem_filter he
      by_cases hu : e.2.1 = u
      · exfalso
        have h5 := h3 e hmem hf
        rw [hu, hc] at h5
        simp only [Option.some.injEq, CacheEntry.request.injEq] at h5
        exact hne h5.symm
      · show cacheGet (keepItem w.cache u d) e.2.1 = some (.request e.1)
        rw [keepItem_get_ne _ _ _ _ hu]
        exact h3 e hmem hf
    · intro u' r hmk
      by_cases hu : u' = u
      · subst hu
        replace hmk : cacheGet (keepItem w.cache u' d) u' = some (.request r) := hmk
        rw [keepItem_get] at hmk
        cases d <;> simp at hmk
      · replace hmk : cacheGet (keepItem w.cache u d) u' = some (.request r) := hmk
        rw [keepItem_get_ne _ _ _ _ hu] at hmk
        exact h4 u' r hmk
  · rw [if_neg (by simp [hc])]
    exact ⟨fun e he => h1 e (List.mem_of_mem_filter he), h2.sublist hsub,
      fun e he hf => h3 e (List.mem_of_mem_filter he) hf, h4⟩

theorem rejectReq_invariant (w : WrapperState) (u : Uri) (rid : Nat) (canceledShaped : Bool)
    (h : ReqInvariant w) : ReqInvariant (rejectReq w u rid canceledShaped) := by
  obtain ⟨h1, h2, h3, h4⟩ := h
  have hsub : ((w.inflight.filter fun e => e.1 != rid).map (·.1)).Sublist
      (w.inflight.map (·.1)) := (List.filter_sublist _).map _
  simp only [rejectReq]
  by_cases hcond : (!canceledShaped && (cacheGet w.cache u == some (.request rid))) = true
  · rw [if_pos hcond]
    have hc : cacheGet w.cache u = some (.request rid) := by
      simp only [Bool.and_eq_true, beq_iff_eq] at hcond
      exact hcond.2
    refine ⟨?_, h2.sublist hsub, ?_, ?_⟩
    · intro e he
      exact h1 e (List.mem_of_mem_filter he)
    · intro e he hf
      have hmem := List.mem_of_mem_filter he
      have hne : e.1 ≠ rid := by simpa using List.of_mem_filter he
      by_cases hu : e.2.1 = u
      · exfalso
        have h5 := h3 e hmem hf
        rw [hu, hc] at h5
        simp only [Option.some.injEq, CacheEntry.request.injEq] at h5
        exact hne h5.symm
      · show cacheGet (cacheDelete w.cache u) e.2.1 = some (.request e.1)
        rw [cacheGet_delete_ne _ _ _ hu]
        exact h3 e hmem hf
    · intro u' r hmk
      exact h4 u' r (cacheGet_delete_of_some _ _ _ _ hmk)
  · rw [if_neg hcond]
    exact ⟨fun e he => h1 e (List.mem_of_mem_filter he), h2.sublist hsub,
      fun e he hf => h3 e (List.mem_of_mem_filter he) hf, h4⟩

theorem getOrRetrieve_state (w : WrapperState) (u : Uri) (ic : Bool) :
    (getOrRetrieve w u ic).2 = w ∨ (getOrRetrieve w u ic).2 = (fetchData w u).2 := by
  rcases hm : cacheGet w.cache u with _ | e
  · right; simp [getOrRetrieve, hm]
  · left; simp [getOrRetrieve, hm]

theorem applyDecoOp_invariant (w : WrapperState) (op : DecoOp) (h : ReqInvariant w) :
    ReqInvariant (applyDecoOp w op) := by
  cases op with
  | opRetrieve u ic =>
    show ReqInvariant (getOrRetrieve w u ic).2
    rcases getOrRetrieve_state w u ic with hs | hs
    · rwa [hs]
    · rw [hs]; exact fetchData_invariant w u h
  | opFetch u => exact fetchData_invariant w u h
  | opResolve u rid d => exact resolveReq_invariant w u rid d h
  | opReject u rid c => exact rejectReq_invariant w u rid c h

theorem runDecoOps_invariant (ops : List DecoOp) (w : WrapperState) (h : ReqInvariant w) :
    ReqInvariant (runDecoOps w ops) := by
  induction ops generalizing w with
  | nil => exact h
  | cons op ops ih => exact ih _ (applyDecoOp_invariant w op h)

theorem initWrapper_invariant (p : Uri → ProviderResp) : ReqInvariant ⟨p, [], 0, []⟩ := by
  refine ⟨by simp, by simp, by simp, ?_⟩
  intro u rid hmk
  simp [cacheGet] at hmk

theorem invariant_pending_le_one (w : WrapperState) (u : Uri) (h : ReqInvariant w) :
    (pendingFor w u).length ≤ 1 := by
  obtain ⟨h1, h2, h3, h4⟩ := h
  have hsub : (pendingFor w u).Sublist (w.inflight.map (·.1)) := (List.filter_sublist _).map _
  have hnd : (pendingFor w u).Nodup := h2.sublist hsub
  have hall : ∀ x ∈ pendingFor w u, cacheGet w.cache u = some (.request x) := by
    intro x hx
    simp only [pendingFor, List.mem_map] at hx
    obtain ⟨e, he, hx⟩ := hx
    have hmem := List.mem_of_mem_filter he
    have hcond := List.of_mem_filter he
    simp only [Bool.and_eq_true, beq_iff_eq] at hcond
    subst hx
    have := h3 e hmem hcond.2
    rwa [hcond.1] at this
  match hl : pendingFor w u with
  | [] => simp
  | [x] => simp
  | x :: y :: t =>
    exfalso
    have hx := hall x (by rw [hl]; exact List.mem_cons_self x _)
    have hy := hall y (by rw [hl]; exact List.mem_cons.mpr (Or.inr (List.mem_cons_self y t)))
    rw [hx] at hy
    simp only [Option.some.injEq, CacheEntry.request.injEq] at hy
    rw [hl] at hnd
    rcases List.nodup_cons.mp hnd with ⟨hnx, _⟩
    exact hnx (by rw [hy]; exact List.mem_cons_self y t)

/-- C3 (at-most-one in-flight, last-writer-wins): starting from a fresh
wrapper, after any interleaving of getOrRetrieve calls, direct re-fetches and
request settlements, at most one un-cancelled `provideDecorations` request is
in flight per URI; a fetch that finds a pending request first cancels its
token and removes its marker (and the post-fetch marker is never that stale
request); and a response whose request marker is no longer current commits
nothing to the cache. -/
theorem decoration_single_flight (p : Uri → ProviderResp) (ops : List DecoOp) (u : Uri)
    (w : WrapperState) (rid : Nat) (d : Option Decoration) :
    (pendingFor (runDecoOps ⟨p, [], 0, []⟩ ops) u).length ≤ 1 ∧
    (ReqInvariant w → cacheGet w.cache u = some (.request rid) →
      cacheGet (cancelPending w u).cache u = none ∧
      (∀ e ∈ (fetchData w u).2.inflight, e.1 = rid → e.2.2 = true) ∧
      cacheGet (fetchData w u).2.cache u ≠ some (.request rid)) ∧
    (cacheGet w.cache u ≠ some (.request rid) → (resolveReq w u rid d).cache = w.cache) := by
  refine ⟨?_, ?_, ?_⟩
  · exact invariant_pending_le_one _ u (runDecoOps_invariant ops _ (initWrapper_invariant p))
  · intro hinv hm
    obtain ⟨h1, h2, h3, h4⟩ := hinv
    have hwc : cancelPending w u =
        { w with cache := cacheDelete w.cache u,
                 inflight := w.inflight.map fun (e : Nat × Uri × Bool) =>
                   if e.1 == rid then (e.1, e.2.1, true) else e } := by
      simp [cancelPending, hm]
    have hdel : cacheGet (cancelPending w u).cache u = none := by
      rw [hwc]; exact cacheGet_delete w.cache u
    have hbound : rid < w.nextReqId := h4 u rid hm
    have hnext : (cancelPending w u).nextReqId = w.nextReqId := by rw [hwc]
    have hflagged : ∀ e ∈ (cancelPending w u).inflight, e.1 = rid → e.2.2 = true := by
      intro e' he' hid
      rw [hwc] at he'
      simp only [List.mem_map] at he'
      obtain ⟨e, he, heq⟩ := he'
      by_cases hc : e.1 = rid
      · rw [← heq]; simp [hc]
      · exfalso
        rw [← heq] at hid
        simp only [beq_iff_eq, if_neg hc] at hid
        exact hc hid
    refine ⟨hdel, ?_, ?_⟩
    · rcases hp : (cancelPending w u).provider u with d0 | _
      · rw [fetchData_state_sync w u d0 hp]
        exact hflagged
      · rw [fetchData_state_async w u hp]
        intro e he hid
        rcases List.mem_cons.mp he with he | he
        · exfalso
          rw [he] at hid
          simp only at hid
          rw [hnext] at hid
          omega
        · exact hflagged e he hid
    · rcases hp : (cancelPending w u).provider u with d0 | _
      · rw [fetchData_state_sync w u d0 hp]
        show cacheGet (keepItem (cancelPending w u).cache u d0) u ≠ some (.request rid)
        rw [keepItem_get]
        cases d0 <;> simp
      · rw [fetchData_state_async w u hp]
        show cacheGet (cacheSet (cancelPending w u).cache u
          (.request (cancelPending w u).nextReqId)) u ≠ some (.request rid)
        rw [cacheGet_set, hnext]
        simp only [Ne, Option.some.injEq, CacheEntry.request.injEq]
        omega
  · intro hm
    simp [resolveReq, hm]

theorem cexRejectWrapper_invariant : ReqInvariant cexRejectWrapper := by
  refine ⟨by decide, by decide, by decide, ?_⟩
  intro u rid hmk
  show rid < 1
  by_cases hu : (["a"] : Uri) = u
  · replace hmk : cacheGet [((["a"] : Uri), CacheEntry.request 0)] u = some (.request rid) := hmk
    simp only [cacheGet, hu, if_pos] at hmk
    simp only [Option.some.injEq, CacheEntry.request.injEq] at hmk
    omega
  · replace hmk : cacheGet [((["a"] : Uri), CacheEntry.request 0)] u = some (.request rid) := hmk
    simp only [cacheGet, hu, if_neg, if_false] at hmk
    exact absurd hmk (by simp [cacheGet])

theorem decoration_single_flight_witness :
    cacheGet cexRejectWrapper.cache ["a"] = some (.request 0) ∧
    cacheGet (cancelPending cexRejectWrapper ["a"]).cache ["a"] = none ∧
    (pendingFor (runDecoOps ⟨fun _ => .asyncRes, [], 0, []⟩ [.opFetch ["a"]]) ["a"]).length ≤ 1 ∧
    (resolveReq cexRejectWrapper ["b"] 0 none).cache = cexRejectWrapper.cache :=
  ⟨by decide,
    ((decoration_single_flight (fun _ => .asyncRes) [] ["a"] cexRejectWrapper 0 none).2.1
      cexRejectWrapper_invariant (by decide)).1,
    (decoration_single_flight (fun _ => .asyncRes) [.opFetch ["a"]] ["a"] cexRejectWrapper 0
      none).1,
    (decoration_single_flight (fun _ => .asyncRes) [] ["b"] cexRejectWrapper 0 none).2.2
      (by decide)⟩


theorem mem_childsOf (c : DecoCache) (u : Uri) (d : Decoration) (b : Bool) :
    ((d, b) ∈ childsOf c u) ↔ (b = true ∧ CacheEntry.resolved d ∈ findSuperstr c u) := by
  unfold childsOf
  induction findSuperstr c u with
  | nil => simp
  | cons e l ih =>
    cases e with
    | request rid =>
      simp only [List.filterMap_cons, ih, List.mem_cons]
      constructor
      · rintro ⟨hb, hmem⟩; exact ⟨hb, Or.inr hmem⟩
      · rintro ⟨hb, hmem | hmem⟩
        · exact absurd hmem (by simp)
        · exact ⟨hb, hmem⟩
    | resolved d0 =>
      simp only [List.filterMap_cons, List.mem_cons, ih, Prod.mk.injEq,
        CacheEntry.resolved.injEq]
      constructor
      · rintro (⟨hd, hb⟩ | ⟨hb, hmem⟩)
        · exact ⟨hb, Or.inl hd⟩
        · exact ⟨hb, Or.inr hmem⟩
      · rintro ⟨hb, hd | hmem⟩
        · exact Or.inl ⟨hd, hb⟩
        · exact Or.inr ⟨hb, hmem⟩

theorem mem_if_childs (c : DecoCache) (u : Uri) (ic : Bool) (d : Decoration) (b : Bool) :
    ((d, b) ∈ (if ic then childsOf c u else [])) ↔
      (b = true ∧ ic = true ∧ CacheEntry.resolved d ∈ findSuperstr c u) := by
  by_cases hic : ic = true
  · rw [if_pos hic, mem_childsOf]
    constructor
    · rintro ⟨hb, hmem⟩; exact ⟨hb, hic, hmem⟩
    · rintro ⟨hb, _, hmem⟩; exact ⟨hb, hmem⟩
  · rw [if_neg hic]
    simp [hic]

theorem getOrRetrieve_state_hit (w : WrapperState) (u : Uri) (ic : Bool) (e : CacheEntry)
    (hm : cacheGet w.cache u = some e) : (getOrRetrieve w u ic).2 = w := by
  simp [getOrRetrieve, hm]

theorem getOrRetrieve_state_miss (w : WrapperState) (u : Uri) (ic : Bool)
    (hm : cacheGet w.cache u = none) : (getOrRetrieve w u ic).2 = (fetchData w u).2 := by
  simp [getOrRetrieve, hm]

theorem getOrRetrieve_fst_hit_req (w : WrapperState) (u : Uri) (ic : Bool) (rid : Nat)
    (hm : cacheGet w.cache u = some (.request rid)) :
    (getOrRetrieve w u ic).1 = (if ic then childsOf w.cache u else []) := by
  simp [getOrRetrieve, hm]

theorem getOrRetrieve_fst_hit_res (w : WrapperState) (u : Uri) (ic : Bool) (d0 : Decoration)
    (hm : cacheGet w.cache u = some (.resolved d0)) :
    (getOrRetrieve w u ic).1 = (d0, false) :: (if ic then childsOf w.cache u else []) := by
  simp [getOrRetrieve, hm]

theorem getOrRetrieve_fst_miss (w : WrapperState) (u : Uri) (ic : Bool)
    (hm : cacheGet w.cache u = none) :
    (getOrRetrieve w u ic).1 =
      ((fetchData w u).1.map fun d => (d, false)).toList ++
        (if ic then childsOf (fetchData w u).2.cache u else []) := by
  rcases hr : (fetchData w u).1 with _ | d0 <;> simp [getOrRetrieve, hm, hr]

theorem fetchData_get_self (w : WrapperState) (u : Uri) :
    cacheGet (fetchData w u).2.cache u = (fetchData w u).1.map CacheEntry.resolved ∨
    (cacheGet (fetchData w u).2.cache u =
        some (.request (cancelPending w u).nextReqId) ∧ (fetchData w u).1 = none) := by
  rcases hp : (cancelPending w u).provider u with d0 | _
  · left
    have hfst : (fetchData w u).1 = d0 := by simp [fetchData, hp]
    rw [fetchData_state_sync w u d0 hp, hfst]
    show cacheGet (keepItem (cancelPending w u).cache u d0) u = _
    rw [keepItem_get]
  · right
    have hfst : (fetchData w u).1 = none := by simp [fetchData, hp]
    rw [fetchData_state_async w u hp, hfst]
    exact ⟨cacheGet_set _ _ _, rfl⟩

/-- Membership in one wrapper's getOrRetrieve emissions, characterised against
the post-call wrapper state. -/
theorem getOrRetrieve_mem (w : WrapperState) (u : Uri) (ic : Bool) (d : Decoration) (b : Bool) :
    (d, b) ∈ (getOrRetrieve w u ic).1 ↔
      (b = false ∧ cacheGet (getOrRetrieve w u ic).2.cache u = some (.resolved d)) ∨
      (b = true ∧ ic = true ∧
        CacheEntry.resolved d ∈ findSuperstr (getOrRetrieve w u ic).2.cache u) := by
  rcases hm : cacheGet w.cache u with _ | e
  · rw [getOrRetrieve_fst_miss w u ic hm, getOrRetrieve_state_miss w u ic hm]
    rcases fetchData_get_self w u with hself | ⟨hself, hnone⟩
    · rcases hr : (fetchData w u).1 with _ | d0
      · rw [hr] at hself
        simp only [Option.map_none'] at hself
        simp only [hr, Option.map_none', Option.toList_none, List.nil_append]
        rw [mem_if_childs, hself]
        simp
      · rw [hr] at hself
        simp only [Option.map_some'] at hself
        simp only [hr, Option.map_some', Option.toList_some, List.singleton_append]
        rw [hself]
        constructor
        · intro hmem
          rcases List.mem_cons.mp hmem with hmem | hmem
          · left
            simp only [Prod.mk.injEq] at hmem
            exact ⟨hmem.2, by rw [hmem.1]⟩
          · right
            exact (mem_if_childs _ _ _ _ _).mp hmem
        · rintro (⟨hb, hcg⟩ | hc)
          · simp only [Option.some.injEq, CacheEntry.resolved.injEq] at hcg
            exact List.mem_cons.mpr (Or.inl (by rw [hb, hcg]))
          · exact List.mem_cons.mpr (Or.inr ((mem_if_childs _ _ _ _ _).mpr hc))
    · simp only [hnone, Option.map_none', Option.toList_none, List.nil_append]
      rw [mem_if_childs, hself]
      simp
  · cases e with
    | request rid =>
      rw [getOrRetrieve_fst_hit_req w u ic rid hm, getOrRetrieve_state_hit w u ic _ hm, hm]
      rw [mem_if_childs]
      simp
    | resolved d0 =>
      rw [getOrRetrieve_fst_hit_res w u ic d0 hm, getOrRetrieve_state_hit w u ic _ hm, hm]
      constructor
      · intro hmem
        rcases List.mem_cons.mp hmem with hmem | hmem
        · left
          simp only [Prod.mk.injEq] at hmem
          exact ⟨hmem.2, by rw [hmem.1]⟩
        · right
          exact (mem_if_childs _ _ _ _ _).mp hmem
      · rintro (⟨hb, hcg⟩ | hc)
        · simp only [Option.some.injEq, CacheEntry.resolved.injEq] at hcg
          exact List.mem_cons.mpr (Or.inl (by rw [hb, hcg]))
        · exact List.mem_cons.mpr (Or.inr ((mem_if_childs _ _ _ _ _).mpr hc))

theorem getDecoration_cons (w : WrapperState) (ws : List WrapperState) (u : Uri) (ic : Bool) :
    getDecoration (w :: ws) u ic =
      ((((getOrRetrieve w u ic).1.filter fun p => !p.2 || p.1.bubble == some true).map (·.1)) ++
        (getDecoration ws u ic).1,
       (getOrRetrieve w u ic).2 :: (getDecoration ws u ic).2) := by
  simp [getDecoration]

/-- Membership in the decorations one wrapper contributes to getDecoration
(after the `!isChild || deco.bubble` filter). -/
theorem mem_kept (w : WrapperState) (u : Uri) (ic : Bool) (d : Decoration) :
    d ∈ (((getOrRetrieve w u ic).1.filter fun p => !p.2 || p.1.bubble == some true).map (·.1)) ↔
      (cacheGet (getOrRetrieve w u ic).2.cache u = some (.resolved d)) ∨
      (ic = true ∧ d.bubble = some true ∧
        CacheEntry.resolved d ∈ findSuperstr (getOrRetrieve w u ic).2.cache u) := by
  constructor
  · intro hmem
    simp only [List.mem_map] at hmem
    obtain ⟨p, hp, hd⟩ := hmem
    have hmemf := List.mem_of_mem_filter hp
    have hcond := List.of_mem_filter hp
    obtain ⟨d', b⟩ := p
    simp only at hd
    subst hd
    rcases (getOrRetrieve_mem w u ic d' b).mp hmemf with ⟨hb, hcg⟩ | ⟨hb, hic, hmem2⟩
    · exact Or.inl hcg
    · right
      subst hb
      simp only [Bool.not_true, Bool.false_or, beq_iff_eq] at hcond
      exact ⟨hic, hcond, hmem2⟩
  · rintro (hcg | ⟨hic, hbub, hmem2⟩)
    · refine List.mem_map.mpr ⟨(d, false), ?_, rfl⟩
      refine List.mem_filter.mpr ⟨?_, by simp⟩
      exact (getOrRetrieve_mem w u ic d false).mpr (Or.inl ⟨rfl, hcg⟩)
    · refine List.mem_map.mpr ⟨(d, true), ?_, rfl⟩
      refine List.mem_filter.mpr ⟨?_, by simp [hbub]⟩
      exact (getOrRetrieve_mem w u ic d true).mpr (Or.inr ⟨rfl, hic, hmem2⟩)

/-- Membership in the aggregate getDecoration result, characterised against
the post-call wrapper states. -/
theorem getDecoration_mem (ws : List WrapperState) (u : Uri) (ic : Bool) (d : Decoration) :
    d ∈ (getDecoration ws u ic).1 ↔
      (∃ w' ∈ (getDecoration ws u ic).2, cacheGet w'.cache u = some (.resolved d)) ∨
      (ic = true ∧ d.bubble = some true ∧
        ∃ w' ∈ (getDecoration ws u ic).2, CacheEntry.resolved d ∈ findSuperstr w'.cache u) := by
  induction ws with
  | nil => simp [getDecoration]
  | cons w ws ih =>
    rw [getDecoration_cons]
    simp only [List.mem_append, List.mem_cons]
    constructor
    · rintro (hmem | hmem)
      · rcases (mem_kept w u ic d).mp hmem with hcg | ⟨hic, hbub, hmem2⟩
        · exact Or.inl ⟨_, Or.inl rfl, hcg⟩
        · exact Or.inr ⟨hic, hbub, _, Or.inl rfl, hmem2⟩
      · rcases ih.mp hmem with ⟨w', hw', hcg⟩ | ⟨hic, hbub, w', hw', hmem2⟩
        · exact Or.inl ⟨w', Or.inr hw', hcg⟩
        · exact Or.inr ⟨hic, hbub, w', Or.inr hw', hmem2⟩
    · rintro (⟨w', hw', hcg⟩ | ⟨hic, hbub, w', hw', hmem2⟩)
      · rcases hw' with hw' | hw'
        · subst hw'
          exact Or.inl ((mem_kept w u ic d).mpr (Or.inl hcg))
        · exact Or.inr (ih.mpr (Or.inl ⟨w', hw', hcg⟩))
      · rcases hw' with hw' | hw'
        · subst hw'
          exact Or.inl ((mem_kept w u ic d).mpr (Or.inr ⟨hic, hbub, hmem2⟩))
        · exact Or.inr (ih.mpr (Or.inr ⟨hic, hbub, w', hw', hmem2⟩))

/-- C6 (decoration aggregation, bubble rule): a decoration is in the result of
`getDecoration(uri, includeChildren)` exactly when some provider's cache (as
left by the call) resolves the queried URI itself to it, or when
`includeChildren` holds, the decoration opts in via `bubble: true`, and some
provider's cache resolves a strict descendant URI to it; moreover a
decoration already resolved for the queried URI before the call is always
included. -/
theorem decoration_bubble_rule (ws : List WrapperState) (u : Uri) (ic : Bool) (d : Decoration) :
    (d ∈ (getDecoration ws u ic).1 ↔
      (∃ w' ∈ (getDecoration ws u ic).2, cacheGet w'.cache u = some (.resolved d)) ∨
      (ic = true ∧ d.bubble = some true ∧
        ∃ w' ∈ (getDecoration ws u ic).2, CacheEntry.resolved d ∈ findSuperstr w'.cache u)) ∧
    (∀ w ∈ ws, cacheGet w.cache u = some (.resolved d) → d ∈ (getDecoration ws u ic).1) := by
  refine ⟨getDecoration_mem ws u ic d, ?_⟩
  intro w hw hcg
  induction ws with
  | nil => simp at hw
  | cons w0 ws ih =>
    rw [getDecoration_cons]
    simp only [List.mem_append]
    rcases List.mem_cons.mp hw with hw | hw
    · left
      subst hw
      apply (mem_kept w u ic d).mpr
      left
      rw [getOrRetrieve_state_hit w u ic _ hcg]
      exact hcg
    · right
      exact ih hw

/-- Two resolved entries: one for URI a (no bubble), one for a/b (bubble). -/
def cexResolvedWrapper : WrapperState :=
  ⟨fun _ => .asyncRes,
    [(["a"], .resolved ⟨none, some "M", none⟩), (["a", "b"], .resolved ⟨none, some "U", some true⟩)],
    0, []⟩

theorem decoration_bubble_rule_witness :
    cexResolvedWrapper ∈ [cexResolvedWrapper] ∧
    cacheGet cexResolvedWrapper.cache ["a"] = some (.resolved ⟨none, some "M", none⟩) ∧
    (⟨none, some "M", none⟩ : Decoration) ∈ (getDecoration [cexResolvedWrapper] ["a"] true).1 :=
  ⟨List.mem_singleton.mpr rfl, by decide,
    (decoration_bubble_rule [cexResolvedWrapper] ["a"] true ⟨none, some "M", none⟩).2
      cexResolvedWrapper (List.mem_singleton.mpr rfl) (by decide)⟩

/-- C10 (getDecoration is a synchronous projection of resolved state): the
call is a total function; a provider whose slot for the URI is a pending
request contributes no own decoration and its state is untouched; a cache
miss against an asynchronous provider contributes nothing to this call and
only installs a fresh pending marker (the fetch's side effect), whose result
— once committed by the `.then` continuation — is visible to later calls; a
provider answering synchronously during the call does contribute its
result. -/
theorem getDecoration_synchronous (w : WrapperState) (u : Uri) (ic : Bool) (rid : Nat)
    (d : Decoration) :
    (cacheGet w.cache u = some (.request rid) →
      (getOrRetrieve w u ic).2 = w ∧ ∀ d', (d', false) ∉ (getOrRetrieve w u ic).1) ∧
    (cacheGet w.cache u = none → w.provider u = .asyncRes →
      (∀ d', (d', false) ∉ (getOrRetrieve w u ic).1) ∧
      cacheGet (getOrRetrieve w u ic).2.cache u = some (.request w.nextReqId)) ∧
    (cacheGet w.cache u = some (.request rid) →
      cacheGet (resolveReq w u rid (some d)).cache u = some (.resolved d) ∧
      d ∈ (getDecoration [resolveReq w u rid (some d)] u ic).1) ∧
    (cacheGet w.cache u = none → w.provider u = .syncRes (some d) →
      d ∈ (getDecoration [w] u ic).1) := by
  refine ⟨?_, ?_, ?_, ?_⟩
  · intro hq
    refine ⟨getOrRetrieve_state_hit w u ic _ hq, ?_⟩
    intro d' hmem
    rcases (getOrRetrieve_mem w u ic d' false).mp hmem with ⟨_, hcg⟩ | ⟨hb, _⟩
    · rw [getOrRetrieve_state_hit w u ic _ hq, hq] at hcg
      simp at hcg
    · simp at hb
  · intro hq hp
    have hcp : cancelPending w u = w := by simp [cancelPending, hq]
    have hp' : (cancelPending w u).provider u = .asyncRes := by rw [hcp]; exact hp
    have hpost : (getOrRetrieve w u ic).2 = (fetchData w u).2 :=
      getOrRetrieve_state_miss w u ic hq
    have hcg : cacheGet (getOrRetrieve w u ic).2.cache u = some (.request w.nextReqId) := by
      rw [hpost, fetchData_state_async w u hp']
      show cacheGet (cacheSet (cancelPending w u).cache u
        (.request (cancelPending w u).nextReqId)) u = _
      rw [cacheGet_set, hcp]
    refine ⟨?_, hcg⟩
    intro d' hmem
    rcases (getOrRetrieve_mem w u ic d' false).mp hmem with ⟨_, hcg2⟩ | ⟨hb, _⟩
    · rw [hcg] at hcg2
      simp at hcg2
    · simp at hb
  · intro hq
    have hcond : (cacheGet w.cache u == some (CacheEntry.request rid)) = true := by simp [hq]
    have hcg' : cacheGet (resolveReq w u rid (some d)).cache u = some (.resolved d) := by
      simp only [resolveReq, hcond, if_true]
      show cacheGet (keepItem w.cache u (some d)) u = _
      rw [keepItem_get]
      rfl
    refine ⟨hcg', ?_⟩
    apply (getDecoration_mem [resolveReq w u rid (some d)] u ic d).mpr
    left
    refine ⟨(getOrRetrieve (resolveReq w u rid (some d)) u ic).2, ?_, ?_⟩
    · rw [getDecoration_cons]
      exact List.mem_cons_self _ _
    · rw [getOrRetrieve_state_hit _ u ic _ hcg']
      exact hcg'
  · intro hq hp
    have hcp : cancelPending w u = w := by simp [cancelPending, hq]
    have hp' : (cancelPending w u).provider u = .syncRes (some d) := by rw [hcp]; exact hp
    have hpost : (getOrRetrieve w u ic).2 = (fetchData w u).2 :=
      getOrRetrieve_state_miss w u ic hq
    have hcg : cacheGet (getOrRetrieve w u ic).2.cache u = some (.resolved d) := by
      rw [hpost, fetchData_state_sync w u (some d) hp']
      show cacheGet (keepItem (cancelPending w u).cache u (some d)) u = _
      rw [keepItem_get]
      rfl
    apply (getDecoration_mem [w] u ic d).mpr
    left
    refine ⟨(getOrRetrieve w u ic).2, ?_, hcg⟩
    rw [getDecoration_cons]
    exact List.mem_cons_self _ _

theorem getDecoration_synchronous_witness :
    (getOrRetrieve cexRejectWrapper ["a"] true).2 = cexRejectWrapper ∧
    cacheGet (getOrRetrieve (⟨fun _ => .asyncRes, [], 0, []⟩ : WrapperState) ["a"] true).2.cache
        ["a"] = some (.request 0) ∧
    (⟨none, some "S", none⟩ : Decoration) ∈
      (getDecoration [⟨fun _ => .syncRes (some ⟨none, some "S", none⟩), [], 0, []⟩]
        ["a"] true).1 ∧
    (⟨none, some "R", none⟩ : Decoration) ∈
      (getDecoration [resolveReq cexRejectWrapper ["a"] 0 (some ⟨none, some "R", none⟩)]
        ["a"] true).1 :=
  ⟨((getDecoration_synchronous cexRejectWrapper ["a"] true 0 ⟨none, some "R", none⟩).1
      (by decide)).1,
   ((getDecoration_synchronous ⟨fun _ => .asyncRes, [], 0, []⟩ ["a"] true 0
      ⟨none, some "R", none⟩).2.1 (by decide) rfl).2,
   (getDecoration_synchronous ⟨fun _ => .syncRes (some ⟨none, some "S", none⟩), [], 0, []⟩
      ["a"] true 0 ⟨none, some "S", none⟩).2.2.2 (by decide) rfl,
   ((getDecoration_synchronous cexRejectWrapper ["a"] true 0 ⟨none, some "R", none⟩).2.2.1
      (by decide)).2⟩

/-! ## Tree Core heap model
(TreeImpl and CompositeTreeNode in
packages/core/src/browser/tree/base-tree/tree-model.ts)

Nodes are JS objects; object identity matters (`this.nodes[root.id] !==
root`), so the heap maps an address to a mutable node record and the Node
Store maps a node id to an address.  A non-composite node has `children :=
none`.  The recursive heap walks (addNode, removeNode, getRootNode) only
terminate on acyclic graphs, so they carry explicit fuel; every lemma
assumes enough fuel for the (finite) structure at hand. -/

structure NodeRec where
  nid : Nat := 0
  parent : Option Nat := none
  previousSibling : Option Nat := none
  nextSibling : Option Nat := none
  children : Option (List Nat) := none
  deriving Repr, DecidableEq

abbrev Heap := Nat → NodeRec
abbrev Store := Nat → Option Nat

def hUpdate (h : Heap) (a : Nat) (r : NodeRec) : Heap :=
  fun b => if b = a then r else h b

def stSet (st : Store) (i a : Nat) : Store :=
  fun j => if j = i then some a else st j

def stDelete (st : Store) (i : Nat) : Store :=
  fun j => if j = i then none else st j

/-- A node's children array (empty for a non-composite node). -/
def getChildren (h : Heap) (a : Nat) : List Nat := ((h a).children).getD []

/-- CompositeTreeNode.setParent(child, index, parent): assign the child's
parent and sibling pointers from the adjacent indices of `parent.children`
(JS `children[-1]` and `children[length]` are `undefined`), and patch both
neighbours' opposite pointers. -/
def setParent (h : Heap) (c : Nat) (index : Nat) (p : Nat) : Heap :=
  let cs := getChildren h p
  let ps := if index = 0 then none else cs.get? (index - 1)
  let ns := cs.get? (index + 1)
  let h1 := hUpdate h c { h c with parent := some p, previousSibling := ps, nextSibling := ns }
  let h2 :=
    match ps with
    | some a => hUpdate h1 a { h1 a with nextSibling := some c }
    | none => h1
  match ns with
  | some a => hUpdate h2 a { h2 a with previousSibling := some c }
  | none => h2

mutual
/-- TreeImpl.addNode: store the node under its id, then for each child (in
array order) CompositeTreeNode.setParent and recurse.  Fuel is consumed on
every step. -/
def addNode : Nat → Heap → Store → Nat → Heap × Store
  | 0, h, st, _ => (h, st)
  | fuel + 1, h, st, a =>
    let st1 := stSet st (h a).nid a
    match (h a).children with
    | none => (h, st1)
    | some cs => addNodeChildren fuel h st1 a cs 0
/-- The `children.forEach((child, index) => ...)` loop of addNode. -/
def addNodeChildren : Nat → Heap → Store → Nat → List Nat → Nat → Heap × Store
  | 0, h, st, _, _, _ => (h, st)
  | _ + 1, h, st, _, [], _ => (h, st)
  | fuel + 1, h, st, p, c :: rest, index =>
    let h1 := setParent h c index p
    let r := addNode fuel h1 st c
    addNodeChildren fuel r.1 r.2 p rest (index + 1)
end

mutual
/-- TreeImpl.removeNode: recursively delete the subtree's ids from the Node
Store (the heap is not touched). -/
def removeNode : Nat → Heap → Store → Nat → Store
  | 0, _, st, _ => st
  | fuel + 1, h, st, a =>
    let st1 :=
      match (h a).children with
      | some cs => removeNodeChildren fuel h st cs
      | none => st
    stDelete st1 (h a).nid
/-- The `node.children.forEach(child => this.removeNode(child))` loop. -/
def removeNodeChildren : Nat → Heap → Store → List Nat → Store
  | 0, _, st, _ => st
  | _ + 1, _, st, [] => st
  | fuel + 1, h, st, c :: rest =>
    removeNodeChildren fuel h (removeNode fuel h st c) rest
end

/-- TreeImpl.getRootNode: walk the parent chain; `none` stands for the walk
not terminating within the fuel (the source would loop forever on a cyclic
parent chain). -/
def getRootNode : Nat → Heap → Nat → Option Nat
  | 0, _, _ => none
  | fuel + 1, h, a =>
    match (h a).parent with
    | none => some a
    | some p => getRootNode fuel h p

structure TreeState where
  heap : Heap
  store : Store
  root : Option Nat

/-- TreeImpl.validateNode: re-resolve a node reference through the Node Store
by its id. -/
def validateNode (s : TreeState) (a : Nat) : Option Nat := s.store (s.heap a).nid

/-- TreeImpl.setChildren: validate that the target's transitive root is the
Node Store's entry for that root id (`console.error` and return `undefined`
otherwise — no throw, no mutation); then remove the old subtree from the
store, install the new children array, re-add the subtree recomputing
parent/sibling pointers, and fire onNodeRefreshed (an event, no state effect
here). -/
def setChildren (fuel : Nat) (s : TreeState) (p : Nat) (cs : List Nat) :
    TreeState × Option Nat :=
  match getRootNode fuel s.heap p with
  | none => (s, none)
  | some r =>
    if (s.store (s.heap r).nid).isSome ∧ s.store (s.heap r).nid ≠ some r then
      (s, none)
    else
      let st1 := removeNode fuel s.heap s.store p
      let h1 := hUpdate s.heap p { s.heap p with children := some cs }
      let ra := addNode fuel h1 st1 p
      (⟨ra.1, ra.2, s.root⟩, some p)

/-- The cancellation token's observed state at the two await points of
TreeImpl.refresh: never cancelled, cancelled at the `await
this.resolveChildren(parent)` point, or cancelled during the awaited
setChildren (whose mutations happen before its internal await of
fireNodeRefreshed). -/
inductive RefreshCancel where
  | never
  | atResolve
  | atSetChildren
  deriving Repr, DecidableEq

/-- TreeImpl.refresh(raw, cancellationToken): resolve the target (the root
when `raw` is omitted, else validateNode); if it is a composite, resolve the
children (the collaborator's result is the `newChildren` argument), check the
token, install them via setChildren, check the token again.  Busy marking is
a separate side channel (doSetBusy/doResetBusy above). -/
def refresh (fuel : Nat) (s : TreeState) (raw : Option Nat) (newChildren : List Nat)
    (cp : RefreshCancel) : TreeState × Option Nat :=
  match (match raw with | none => s.root | some a => validateNode s a) with
  | some p =>
    if (s.heap p).children.isSome then
      if cp = .atResolve then (s, none)
      else
        let r := setChildren fuel s p newChildren
        if cp = .atSetChildren then (r.1, none)
        else r
    else (s, none)
  | none => (s, none)

/-- CompositeTreeNode.removeChild(parent, child): find the child's index in
`parent.children` by id, splice it out, and patch the removed child's
recorded siblings to point past it. -/
def removeChild (h : Heap) (p c : Nat) : Heap :=
  let cs := getChildren h p
  match cs.findIdx? (fun x => (h x).nid == (h c).nid) with
  | none => h
  | some i =>
    let h1 := hUpdate h p { h p with children := some (cs.eraseIdx i) }
    let pv := (h c).previousSibling
    let nx := (h c).nextSibling
    let h2 :=
      match pv with
      | some a => hUpdate h1 a { h1 a with nextSibling := nx }
      | none => h1
    match nx with
    | some a => hUpdate h2 a { h2 a with previousSibling := pv }
    | none => h2

/-- Root with one child; ids equal addresses. -/
def cexRefreshState : TreeState :=
  ⟨fun a =>
      if a = 0 then ⟨0, none, none, none, some [1]⟩
      else if a = 1 then ⟨1, some 0, none, none, none⟩
      else ⟨2, none, none, none, none⟩,
    fun i => if i = 0 then some 0 else if i = 1 then some 1 else none,
    some 0⟩

/-- C2 counterexample: a refresh whose token is cancelled during the awaited
setChildren (at the fireNodeRefreshed await point) returns `undefined` as a
cancelled refresh, yet the Node Store has lost the dropped child's entry and
the target composite's `children` array has been replaced — the partial
writes are visible, refuting the no-partial-writes claim. -/
theorem refresh_cancellation_cex :
    (refresh 5 cexRefreshState none [] .atSetChildren).2 = none ∧
    (refresh 5 cexRefreshState none [] .atSetChildren).1.store 1 ≠ cexRefreshState.store 1 ∧
    ((refresh 5 cexRefreshState none [] .atSetChildren).1.heap 0).children ≠
      (cexRefreshState.heap 0).children := by
  decide

/-- C2 (amended): a refresh whose token is already cancelled when the awaited
resolveChildren returns aborts with `undefined` and leaves the whole state
(Node Store, heap, root) untouched; a refresh whose token becomes cancelled
during the awaited setChildren still returns `undefined`, but only the
abort's return value is guaranteed — setChildren's mutations may remain. -/
theorem refresh_cancellation (fuel : Nat) (s : TreeState) (raw : Option Nat) (cs : List Nat) :
    refresh fuel s raw cs .atResolve = (s, none) ∧
    (refresh fuel s raw cs .atSetChildren).2 = none := by
  constructor
  · rcases raw with _ | a
    · rcases hr : s.root with _ | p
      · simp [refresh, hr]
      · by_cases hcomp : (s.heap p).children.isSome <;> simp [refresh, hr, hcomp]
    · rcases hv : validateNode s a with _ | p
      · simp [refresh, hv]
      · by_cases hcomp : (s.heap p).children.isSome <;> simp [refresh, hv, hcomp]
  · rcases raw with _ | a
    · rcases hr : s.root with _ | p
      · simp [refresh, hr]
      · by_cases hcomp : (s.heap p).children.isSome <;> simp [refresh, hr, hcomp]
    · rcases hv : validateNode s a with _ | p
      · simp [refresh, hv]
      · by_cases hcomp : (s.heap p).children.isSome <;> simp [refresh, hv, hcomp]

/-- C7 (setChildren root validation degrades to undefined): when the target's
transitive root differs from the Node Store's entry for that root id,
setChildren logs and returns `undefined` with the state untouched (no store
or children mutation, nothing thrown), and a refresh reaching that
setChildren returns `undefined` with the state untouched as well. -/
theorem setChildren_validation (fuel : Nat) (s : TreeState) (p : Nat) (cs : List Nat)
    (r : Nat) (hr : getRootNode fuel s.heap p = some r)
    (hv : (s.store (s.heap r).nid).isSome ∧ s.store (s.heap r).nid ≠ some r) :
    setChildren fuel s p cs = (s, none) ∧
    (∀ raw, validateNode s raw = some p → (s.heap p).children.isSome →
      refresh fuel s (some raw) cs .never = (s, none)) := by
  have hsc : setChildren fuel s p cs = (s, none) := by
    simp [setChildren, hr, hv]
  refine ⟨hsc, ?_⟩
  intro raw hval hcomp
  simp [refresh, hval, hcomp, hsc]

/-- A detached composite (address 5, id 1) whose root resolves through the
store to a different object (address 9), plus a stale reference (address 3,
id 2) that validateNode resolves to address 5. -/
def cexValidationState : TreeState :=
  ⟨fun a =>
      if a = 5 then ⟨1, none, none, none, some []⟩
      else if a = 3 then ⟨2, none, none, none, none⟩
      else ⟨0, none, none, none, none⟩,
    fun i => if i = 1 then some 9 else if i = 2 then some 5 else none,
    some 9⟩

theorem setChildren_validation_witness :
    getRootNode 2 cexValidationState.heap 5 = some 5 ∧
    setChildren 2 cexValidationState 5 [] = (cexValidationState, none) ∧
    refresh 2 cexValidationState (some 3) [] .never = (cexValidationState, none) :=
  ⟨by decide,
    (setChildren_validation 2 cexValidationState 5 [] 5 (by decide)
      ⟨by decide, by decide⟩).1,
    (setChildren_validation 2 cexValidationState 5 [] 5 (by decide)
      ⟨by decide, by decide⟩).2 3 (by decide) (by decide)⟩

/-! ## SourceTree reconciliation
(packages/core/src/browser/tree/source-tree/source-tree.ts)

A TreeElementNode as a value record: `element` and `parent` are identity
tokens for the referenced objects; the presence of `children`/`expanded`
encodes CompositeTreeNode.is / the expandable flag.  The ExpandableTreeNode
namespace and tree-source.ts (CompositeTreeElement.hasElements,
expandByDefault) are not under src/ and are modelled from the spec: an
expandable node is a composite node carrying an `expanded` flag, and
`hasElements` marks an element with child elements. -/

structure SNodeRec where
  sid : String := ""
  name : String := ""
  element : Nat := 0
  parent : Nat := 0
  selected : Bool := false
  visible : Option Bool := none
  expanded : Option Bool := none
  children : Option (List String) := none
  deriving Repr, DecidableEq

structure TElement where
  eid : Option String := none
  hasElements : Bool := false
  expandByDefault : Option Bool := none
  visible : Option Bool := none
  tok : Nat := 0
  deriving Repr, DecidableEq

/-- The id SourceTree.toNode computes:
`element.id ? String(element.id) : parent.id + ":" + index` (an absent or
empty id is falsy). -/
def elementNodeId (element : TElement) (index : Nat) (parentId : String) : String :=
  match element.eid with
  | some s => if s = "" then parentId ++ ":" ++ toString index else s
  | none => parentId ++ ":" ++ toString index

/-- SourceTree.toNode(element, index, parent): look the computed id up in the
Node Store; an existing node is merged in place (`Object.assign(existing,
{ element, parent })`), then its composite/expandable shape is adjusted to
the element's shape (`expanded`/`children` added for a composite element,
deleted for a leaf element); a miss builds a fresh node with
`selected: false`. -/
def toNode (store : String → Option SNodeRec) (element : TElement) (index : Nat)
    (parentId : String) (parentTok : Nat) : SNodeRec :=
  let id := elementNodeId element index parentId
  match store id with
  | some existing =>
    let updated := { existing with element := element.tok, parent := parentTok }
    if element.hasElements then
      let expand := element.expandByDefault.getD false
      let u1 :=
        if !(updated.children.isSome && updated.expanded.isSome) then
          { updated with expanded := some expand }
        else updated
      if !u1.children.isSome then { u1 with children := some [] } else u1
    else
      let u1 :=
        if updated.children.isSome && updated.expanded.isSome && updated.visible == some true
        then { updated with expanded := none, children := none }
        else updated
      let u2 :=
        if u1.children.isSome && u1.expanded.isSome then { u1 with expanded := none } else u1
      if u2.children.isSome then { u2 with children := none } else u2
  | none =>
    if element.hasElements then
      { sid := id, name := id, element := element.tok, parent := parentTok,
        selected := false, expanded := some (element.expandByDefault.getD false),
        children := some [] }
    else
      { sid := id, name := id, element := element.tok, parent := parentTok,
        selected := false }

/-- SourceTree.resolveChildren: elements with `visible === false` are
skipped, the rest are converted with a running index (`index++` only on
conversion). -/
def resolveChildrenS (store : String → Option SNodeRec) (parentId : String) (parentTok : Nat) :
    List TElement → Nat → List SNodeRec
  | [], _ => []
  | e :: es, index =>
    if e.visible = some false then resolveChildrenS store parentId parentTok es index
    else toNode store e index parentId parentTok ::
      resolveChildrenS store parentId parentTok es (index + 1)

/-- C9 (refresh reconciliation preserves identity-linked state): when the
computed id matches a node already in the Node Store, toNode merges onto the
existing node — its `selected` flag survives and, for a node that stays
expandable under a composite element, its `expanded` flag survives — while a
genuinely new id produces a fresh node with `selected: false`. -/
theorem source_tree_reconciliation (store : String → Option SNodeRec) (element : TElement)
    (index : Nat) (parentId : String) (parentTok : Nat) (ex : SNodeRec) :
    (store (elementNodeId element index parentId) = some ex →
      (toNode store element index parentId parentTok).selected = ex.selected ∧
      (toNode store element index parentId parentTok).element = element.tok ∧
      (element.hasElements = true → ex.children.isSome → ex.expanded.isSome →
        (toNode store element index parentId parentTok).expanded = ex.expanded)) ∧
    (store (elementNodeId element index parentId) = none →
      (toNode store element index parentId parentTok).selected = false) := by
  constructor
  · intro hex
    refine ⟨?_, ?_, ?_⟩
    · simp only [toNode, hex]
      split_ifs <;> rfl
    · simp only [toNode, hex]
      split_ifs <;> rfl
    · intro hcomp hch hexp
      simp [toNode, hex, hcomp, hch, hexp]
  · intro hex
    simp only [toNode, hex]
    split_ifs <;> rfl

/-- A store holding one selected, expanded composite node with id n1. -/
def cexSourceStore : String → Option SNodeRec :=
  fun s => if s = "n1" then some ⟨"n1", "n1", 7, 2, true, none, some true, some []⟩ else none

theorem source_tree_reconciliation_witness :
    cexSourceStore (elementNodeId ⟨some "n1", true, some false, none, 9⟩ 0 "root") =
      some ⟨"n1", "n1", 7, 2, true, none, some true, some []⟩ ∧
    (toNode cexSourceStore ⟨some "n1", true, some false, none, 9⟩ 0 "root" 3).selected = true ∧
    (toNode cexSourceStore ⟨some "n1", true, some false, none, 9⟩ 0 "root" 3).expanded =
      some true ∧
    (toNode cexSourceStore ⟨some "n2", false, none, none, 9⟩ 1 "root" 3).selected = false :=
  ⟨by decide,
    ((source_tree_reconciliation cexSourceStore ⟨some "n1", true, some false, none, 9⟩ 0 "root" 3
        ⟨"n1", "n1", 7, 2, true, none, some true, some []⟩).1 (by decide)).1,
    ((source_tree_reconciliation cexSourceStore ⟨some "n1", true, some false, none, 9⟩ 0 "root" 3
        ⟨"n1", "n1", 7, 2, true, none, some true, some []⟩).1 (by decide)).2.2 rfl (by decide)
      (by decide),
    (source_tree_reconciliation cexSourceStore ⟨some "n2", false, none, none, 9⟩ 1 "root" 3
        ⟨"n1", "n1", 7, 2, true, none, some true, some []⟩).2 (by decide)⟩

/-! ## Structural invariant of the tree heap (witness trees)

A rose-tree witness of the live structure: the heap's children graph from
the root, with distinct addresses.  addNode recomputes parent/sibling
pointers along exactly this structure. -/

mutual
inductive RTree : Type where
  | node : Nat → RForest → RTree
  deriving Repr, DecidableEq
inductive RForest : Type where
  | fnil : RForest
  | fcons : RTree → RForest → RForest
  deriving Repr, DecidableEq
end

def RTree.addr : RTree → Nat
  | .node a _ => a

def RTree.forest : RTree → RForest
  | .node _ ts => ts

mutual
def RTree.addrs : RTree → List Nat
  | .node a ts => a :: ts.addrs
def RForest.addrs : RForest → List Nat
  | .fnil => []
  | .fcons t ts => t.addrs ++ ts.addrs
end

def RForest.roots : RForest → List Nat
  | .fnil => []
  | .fcons t ts => t.addr :: ts.roots

mutual
def RTree.fuelNeed : RTree → Nat
  | .node _ ts => 1 + ts.fuelNeed
def RForest.fuelNeed : RForest → Nat
  | .fnil => 1
  | .fcons t ts => 1 + t.fuelNeed + ts.fuelNeed
end

mutual
/-- The heap's children fields trace out the witness tree. -/
def RTree.shapeOk (h : Heap) : RTree → Prop
  | .node a ts => getChildren h a = ts.roots ∧ ts.shapeOk h
def RForest.shapeOk (h : Heap) : RForest → Prop
  | .fnil => True
  | .fcons t ts => t.shapeOk h ∧ ts.shapeOk h
end

/-- Consistency of one children array: each child points back to the parent
and its sibling fields equal the adjacent entries (none at the ends). -/
def sibList (h : Heap) (p : Nat) (cs : List Nat) : Prop :=
  ∀ i c, cs.get? i = some c →
    (h c).parent = some p ∧
    (h c).previousSibling = (if i = 0 then none else cs.get? (i - 1)) ∧
    (h c).nextSibling = cs.get? (i + 1)

mutual
/-- Parent/sibling pointer consistency below a node (the node's own pointer
fields are constrained by its parent's sibList, not here). -/
def RTree.linkOk (h : Heap) : RTree → Prop
  | .node a ts => sibList h a ts.roots ∧ ts.linkOk h
def RForest.linkOk (h : Heap) : RForest → Prop
  | .fnil => True
  | .fcons t ts => t.linkOk h ∧ ts.linkOk h
end

def TreeOk (h : Heap) (t : RTree) : Prop :=
  t.shapeOk h ∧ t.linkOk h ∧ t.addrs.Nodup

theorem addrs_node (a : Nat) (ts : RForest) : (RTree.node a ts).addrs = a :: ts.addrs := rfl

theorem roots_sublist_addrs : ∀ ts : RForest, ts.roots.Sublist ts.addrs
  | .fnil => List.Sublist.refl _
  | .fcons (.node a sub) rest => by
    show (a :: rest.roots).Sublist ((a :: sub.addrs) ++ rest.addrs)
    rw [List.cons_append]
    exact ((roots_sublist_addrs rest).trans
      (List.sublist_append_right sub.addrs rest.addrs)).cons₂ a

mutual
theorem shapeOk_congr_t : ∀ (t : RTree) (h h' : Heap),
    (∀ a ∈ t.addrs, (h' a).children = (h a).children) → t.shapeOk h → t.shapeOk h'
  | .node a ts, h, h', hag, hok => by
    refine ⟨?_, ?_⟩
    · have hch := hag a (by rw [addrs_node]; exact List.mem_cons_self a _)
      show getChildren h' a = ts.roots
      unfold getChildren
      rw [hch]
      exact hok.1
    · exact shapeOk_congr_f ts h h'
        (fun b hb => hag b (by rw [addrs_node]; exact List.mem_cons_of_mem a hb)) hok.2
theorem shapeOk_congr_f : ∀ (ts : RForest) (h h' : Heap),
    (∀ a ∈ ts.addrs, (h' a).children = (h a).children) → ts.shapeOk h → ts.shapeOk h'
  | .fnil, _, _, _, _ => trivial
  | .fcons t rest, h, h', hag, hok => by
    refine ⟨?_, ?_⟩
    · exact shapeOk_congr_t t h h'
        (fun b hb => hag b (by
          show b ∈ t.addrs ++ rest.addrs
          exact List.mem_append_left _ hb)) hok.1
    · exact shapeOk_congr_f rest h h'
        (fun b hb => hag b (by
          show b ∈ t.addrs ++ rest.addrs
          exact List.mem_append_right _ hb)) hok.2
end

mutual
theorem linkOk_congr_t : ∀ (t : RTree) (h h' : Heap),
    (∀ a ∈ t.forest.addrs, h' a = h a) → t.linkOk h → t.linkOk h'
  | .node a ts, h, h', hag, hok => by
    refine ⟨?_, ?_⟩
    · intro i c hc
      have hcm : c ∈ ts.addrs :=
        (roots_sublist_addrs ts).mem (List.get?_mem hc)
      rw [hag c hcm]
      exact hok.1 i c hc
    · exact linkOk_congr_f ts h h' hag hok.2
theorem linkOk_congr_f : ∀ (ts : RForest) (h h' : Heap),
    (∀ a ∈ ts.addrs, h' a = h a) → ts.linkOk h → ts.linkOk h'
  | .fnil, _, _, _, _ => trivial
  | .fcons (.node a sub) rest, h, h', hag, hok => by
    refine ⟨?_, ?_⟩
    · exact linkOk_congr_t (.node a sub) h h'
        (fun b hb => hag b (by
          show b ∈ (RTree.node a sub).addrs ++ rest.addrs
          rw [addrs_node]
          exact List.mem_append_left _ (List.mem_cons_of_mem a hb))) hok.1
    · exact linkOk_congr_f rest h h'
        (fun b hb => hag b (by
          show b ∈ (RTree.node a sub).addrs ++ rest.addrs
          exact List.mem_append_right _ hb)) hok.2
end

mutual
theorem children_mem_addrs_t : ∀ (t : RTree) (h : Heap), t.shapeOk h →
    ∀ p, p ∈ t.addrs → ∀ c ∈ getChildren h p, c ∈ t.addrs
  | .node a ts, h, hok, p, hp, c, hc => by
    rw [addrs_node] at hp ⊢
    rcases List.mem_cons.mp hp with hp | hp
    · subst hp
      have : c ∈ ts.roots := by
        have h1 : getChildren h p = ts.roots := hok.1
        rwa [h1] at hc
      exact List.mem_cons_of_mem _ ((roots_sublist_addrs ts).mem this)
    · exact List.mem_cons_of_mem _ (children_mem_addrs_f ts h hok.2 p hp c hc)
theorem children_mem_addrs_f : ∀ (ts : RForest) (h : Heap), ts.shapeOk h →
    ∀ p, p ∈ ts.addrs → ∀ c ∈ getChildren h p, c ∈ ts.addrs
  | .fcons t rest, h, hok, p, hp, c, hc => by
    rcases List.mem_append.mp hp with hp | hp
    · exact List.mem_append_left _ (children_mem_addrs_t t h hok.1 p hp c hc)
    · exact List.mem_append_right _ (children_mem_addrs_f rest h hok.2 p hp c hc)
end

mutual
theorem sib_at_member_t : ∀ (t : RTree) (h : Heap), t.shapeOk h → t.linkOk h →
    ∀ p, p ∈ t.addrs → sibList h p (getChildren h p)
  | .node a ts, h, hsh, hlk, p, hp => by
    rw [addrs_node] at hp
    rcases List.mem_cons.mp hp with hp | hp
    · subst hp
      have h1 : getChildren h p = ts.roots := hsh.1
      rw [h1]
      exact hlk.1
    · exact sib_at_member_f ts h hsh.2 hlk.2 p hp
theorem sib_at_member_f : ∀ (ts : RForest) (h : Heap), ts.shapeOk h → ts.linkOk h →
    ∀ p, p ∈ ts.addrs → sibList h p (getChildren h p)
  | .fcons t rest, h, hsh, hlk, p, hp => by
    rcases List.mem_append.mp hp with hp | hp
    · exact sib_at_member_t t h hsh.1 hlk.1 p hp
    · exact sib_at_member_f rest h hsh.2 hlk.2 p hp
end

/-- Reachability from the root along children arrays. -/
inductive Reachable (h : Heap) (r : Nat) : Nat → Prop where
  | root : Reachable h r r
  | child {p c : Nat} : Reachable h r p → c ∈ getChildren h p → Reachable h r c

mutual
theorem reachable_of_mem_t : ∀ (t : RTree) (h : Heap) (r : Nat), t.shapeOk h → t.addr = r →
    ∀ a, a ∈ t.addrs → Reachable h r a
  | .node q ts, h, r, hsh, hr, a, ha => by
    rw [addrs_node] at ha
    rcases List.mem_cons.mp ha with ha | ha
    · have har : a = r := by rw [ha]; exact hr
      rw [har]; exact Reachable.root
    · have hq : Reachable h r q := by
        have hqr : q = r := hr
        rw [hqr]; exact Reachable.root
      exact reachable_of_mem_f ts h r q hsh.2 (by rw [hsh.1]; exact fun x hx => hx) hq a ha
theorem reachable_of_mem_f : ∀ (ts : RForest) (h : Heap) (r q : Nat), ts.shapeOk h →
    ts.roots ⊆ getChildren h q → Reachable h r q → ∀ a, a ∈ ts.addrs → Reachable h r a
  | .fcons (.node b sub) rest, h, r, q, hsh, hroots, hq, a, ha => by
    rcases List.mem_append.mp ha with ha | ha
    · rw [addrs_node] at ha
      have hb : Reachable h r b :=
        Reachable.child hq (hroots (by show b ∈ (RTree.node b sub).addr :: rest.roots; exact List.mem_cons_self _ _))
      rcases List.mem_cons.mp ha with ha | ha
      · subst ha; exact hb
      · exact reachable_of_mem_f sub h r b hsh.1.2 (by rw [hsh.1.1]; exact fun x hx => hx) hb a ha
    · exact reachable_of_mem_f rest h r q hsh.2
        (fun x hx => hroots (by
          show x ∈ (RTree.node b sub).addr :: rest.roots
          exact List.mem_cons_of_mem _ hx)) hq a ha
end

mutual
theorem parent_of_member_t : ∀ (t : RTree) (h : Heap), t.shapeOk h → t.linkOk h →
    t.addrs.Nodup → ∀ a, a ∈ t.addrs → a ≠ t.addr →
    ∃ p, p ∈ t.addrs ∧ (h a).parent = some p ∧ (getChildren h p).count a = 1
  | .node q ts, h, hsh, hlk, hnd, a, ha, hne => by
    rw [addrs_node] at ha hnd
    rcases List.mem_cons.mp ha with ha | ha
    · exact absurd ha hne
    · have hroots : getChildren h q = ts.roots := hsh.1
      have hsib : sibList h q (getChildren h q) := by rw [hroots]; exact hlk.1
      have hchnd : (getChildren h q).Nodup := by
        rw [hroots]
        exact ((List.nodup_cons.mp hnd).2).sublist (roots_sublist_addrs ts)
      obtain ⟨p, hp, hpar, hcnt⟩ :=
        parent_of_member_f ts h q hsh.2 hlk.2 (List.nodup_cons.mp hnd).2 hsib
          (by rw [hroots]; exact fun x hx => hx) hchnd a ha
      refine ⟨p, ?_, hpar, hcnt⟩
      rw [addrs_node]
      rcases hp with hp | hp
      · rw [hp]; exact List.mem_cons_self _ _
      · exact List.mem_cons_of_mem _ hp
theorem parent_of_member_f : ∀ (ts : RForest) (h : Heap) (q : Nat), ts.shapeOk h →
    ts.linkOk h → ts.addrs.Nodup → sibList h q (getChildren h q) →
    ts.roots ⊆ getChildren h q → (getChildren h q).Nodup →
    ∀ a, a ∈ ts.addrs →
    ∃ p, (p = q ∨ p ∈ ts.addrs) ∧ (h a).parent = some p ∧ (getChildren h p).count a = 1
  | .fcons (.node b sub) rest, h, q, hsh, hlk, hnd, hsib, hroots, hchnd, a, ha => by
    rcases List.mem_append.mp ha with ha | ha
    · rw [addrs_node] at ha
      rcases List.mem_cons.mp ha with ha | ha
      · subst ha
        have hmem : a ∈ getChildren h q := hroots (by
          show a ∈ (RTree.node a sub).addr :: rest.roots
          exact List.mem_cons_self _ _)
        obtain ⟨n, hn⟩ := List.get?_of_mem hmem
        exact ⟨q, Or.inl rfl, (hsib n a hn).1, List.count_eq_one_of_mem hchnd hmem⟩
      · have hndt : (RTree.node b sub).addrs.Nodup :=
          (List.nodup_append.mp hnd).1
        rw [addrs_node] at hndt
        have hsubroots : getChildren h b = sub.roots := hsh.1.1
        have hsib' : sibList h b (getChildren h b) := by rw [hsubroots]; exact hlk.1.1
        have hchnd' : (getChildren h b).Nodup := by
          rw [hsubroots]
          exact ((List.nodup_cons.mp hndt).2).sublist (roots_sublist_addrs sub)
        obtain ⟨p, hp, hpar, hcnt⟩ :=
          parent_of_member_f sub h b hsh.1.2 hlk.1.2 (List.nodup_cons.mp hndt).2 hsib'
            (by rw [hsubroots]; exact fun x hx => hx) hchnd' a ha
        refine ⟨p, Or.inr ?_, hpar, hcnt⟩
        refine List.mem_append_left _ ?_
        rw [addrs_node]
        rcases hp with hp | hp
        · rw [hp]; exact List.mem_cons_self _ _
        · exact List.mem_cons_of_mem _ hp
    · obtain ⟨p, hp, hpar, hcnt⟩ :=
        parent_of_member_f rest h q hsh.2 hlk.2 (List.nodup_append.mp hnd).2.1 hsib
          (fun x hx => hroots (by
            show x ∈ (RTree.node b sub).addr :: rest.roots
            exact List.mem_cons_of_mem _ hx)) hchnd a ha
      refine ⟨p, ?_, hpar, hcnt⟩
      rcases hp with hp | hp
      · exact Or.inl hp
      · exact Or.inr (List.mem_append_right _ hp)
end

theorem hUpdate_same (h : Heap) (a : Nat) (r : NodeRec) : hUpdate h a r a = r := by
  simp [hUpdate]

theorem hUpdate_ne (h : Heap) (a : Nat) (r : NodeRec) (b : Nat) (hb : b ≠ a) :
    hUpdate h a r b = h b := by
  simp [hUpdate, hb]

/-- Pointwise evaluation of CompositeTreeNode.setParent: children/id fields
are never written; away from the child and its two patched neighbours the
heap is untouched; and the three written records are as assigned. -/
theorem setParent_eval (h : Heap) (c index p : Nat) (psv nsv : Option Nat)
    (hps : (if index = 0 then none else (getChildren h p).get? (index - 1)) = psv)
    (hns : (getChildren h p).get? (index + 1) = nsv) :
    (∀ b, ((setParent h c index p) b).children = (h b).children ∧
      ((setParent h c index p) b).nid = (h b).nid) ∧
    (∀ b, b ≠ c → psv ≠ some b → nsv ≠ some b → setParent h c index p b = h b) ∧
    (psv ≠ some c → nsv ≠ some c →
      setParent h c index p c =
        { h c with parent := some p, previousSibling := psv, nextSibling := nsv }) ∧
    (∀ pa, psv = some pa → pa ≠ c → nsv ≠ some pa →
      setParent h c index p pa = { h pa with nextSibling := some c }) ∧
    (∀ na, nsv = some na → na ≠ c → psv ≠ some na →
      setParent h c index p na = { h na with previousSibling := some c }) := by
  simp only [setParent, hps, hns]
  rcases psv with _ | pa <;> rcases nsv with _ | na
  · refine ⟨fun b => ?_, fun b hbc _ _ => ?_, fun _ _ => ?_, ?_, ?_⟩
    · by_cases hbc : b = c <;> simp [hUpdate, hbc]
    · simp [hUpdate, hbc]
    · simp [hUpdate]
    · rintro pa h1 _ _; exact absurd h1 (by simp)
    · rintro na h1 _ _; exact absurd h1 (by simp)
  · refine ⟨fun b => ?_, fun b hbc _ hbna => ?_, fun _ hnac => ?_, ?_, ?_⟩
    · by_cases hbna : b = na <;> by_cases hbc : b = c <;> simp_all [hUpdate]
    · have : b ≠ na := fun hh => hbna (by rw [hh])
      simp [hUpdate, hbc, this]
    · have : c ≠ na := fun hh => hnac (by rw [hh])
      simp [hUpdate, this]
    · rintro pa h1 _ _; exact absurd h1 (by simp)
    · rintro na' h1 hna'c _
      have hna' : na' = na := by simpa using h1.symm
      subst hna'
      simp [hUpdate, hna'c]
  · refine ⟨fun b => ?_, fun b hbc hbpa _ => ?_, fun hpac _ => ?_, ?_, ?_⟩
    · by_cases hbpa : b = pa <;> by_cases hbc : b = c <;> simp_all [hUpdate]
    · have : b ≠ pa := fun hh => hbpa (by rw [hh])
      simp [hUpdate, hbc, this]
    · have : c ≠ pa := fun hh => hpac (by rw [hh])
      simp [hUpdate, this]
    · rintro pa' h1 hpa'c _
      have hpa' : pa' = pa := by simpa using h1.symm
      subst hpa'
      simp [hUpdate, hpa'c]
    · rintro na h1 _ _; exact absurd h1 (by simp)
  · refine ⟨fun b => ?_, fun b hbc hbpa hbna => ?_, fun hpac hnac => ?_, ?_, ?_⟩
    · by_cases hbna : b = na <;> by_cases hbpa : b = pa <;> by_cases hbc : b = c <;>
        simp_all [hUpdate]
    · have h2 : b ≠ pa := fun hh => hbpa (by rw [hh])
      have h3 : b ≠ na := fun hh => hbna (by rw [hh])
      simp [hUpdate, hbc, h2, h3]
    · have h2 : c ≠ pa := fun hh => hpac (by rw [hh])
      have h3 : c ≠ na := fun hh => hnac (by rw [hh])
      simp [hUpdate, h2, h3]
    · rintro pa' h1 hpa'c hpa'na
      have hpa' : pa' = pa := by simpa using h1.symm
      subst hpa'
      have h3 : pa' ≠ na := fun hh => hpa'na (by rw [hh])
      simp [hUpdate, hpa'c, h3]
    · rintro na' h1 hna'c hna'pa
      have hna' : na' = na := by simpa using h1.symm
      subst hna'
      have h3 : na' ≠ pa := fun hh => hna'pa (by rw [hh])
      simp [hUpdate, hna'c, h3]

theorem addrs_eq_addr_cons : ∀ t : RTree, t.addrs = t.addr :: t.forest.addrs
  | .node _ _ => rfl

theorem roots_eq_nil : ∀ ts : RForest, ts.roots = [] → ts = .fnil
  | .fnil, _ => rfl
  | .fcons _ _, h => by simp [RForest.roots] at h

theorem fuelNeed_pos_t : ∀ t : RTree, 0 < t.fuelNeed
  | .node _ ts => by simp [RTree.fuelNeed]

theorem fuelNeed_pos_f : ∀ ts : RForest, 0 < ts.fuelNeed
  | .fnil => by simp [RForest.fuelNeed]
  | .fcons _ _ => by simp [RForest.fuelNeed]

theorem get?_pre_append (pre l2 : List Nat) (i : Nat) (hi : i < pre.length) :
    (pre ++ l2).get? i = pre.get? i := List.get?_append hi

theorem get?_at_split (pre : List Nat) (c0 : Nat) (l2 : List Nat) :
    (pre ++ c0 :: l2).get? pre.length = some c0 := by
  rw [List.get?_append_right (Nat.le_refl _)]
  simp

theorem get?_after_split (pre : List Nat) (c0 : Nat) (l2 : List Nat) :
    (pre ++ c0 :: l2).get? (pre.length + 1) = l2.get? 0 := by
  rw [List.get?_append_right (Nat.le_succ_of_le (Nat.le_refl _))]
  simp

theorem addNode_succ (fuel : Nat) (h : Heap) (st : Store) (a : Nat) :
    addNode (fuel + 1) h st a =
      match (h a).children with
      | none => (h, stSet st (h a).nid a)
      | some cs => addNodeChildren fuel h (stSet st (h a).nid a) a cs 0 := rfl

theorem addNodeChildren_succ_cons (fuel : Nat) (h : Heap) (st : Store) (p c : Nat)
    (rest : List Nat) (i : Nat) :
    addNodeChildren (fuel + 1) h st p (c :: rest) i =
      addNodeChildren fuel (addNode fuel (setParent h c i p) st c).1
        (addNode fuel (setParent h c i p) st c).2 p rest (i + 1) := rfl

mutual
/-- Establishment: running TreeImpl.addNode on a heap whose children arrays
trace out the witness tree `t` (with distinct addresses and enough fuel)
rewrites no children/id field, touches only addresses strictly below `t`,
and establishes parent/sibling consistency throughout `t`. -/
theorem addNode_spec_t : ∀ (fuel : Nat) (h : Heap) (st : Store) (t : RTree),
    t.fuelNeed ≤ fuel → t.shapeOk h → t.addrs.Nodup →
    (∀ b, (((addNode fuel h st t.addr).1) b).children = (h b).children ∧
      (((addNode fuel h st t.addr).1) b).nid = (h b).nid) ∧
    (∀ b, b ∉ t.forest.addrs → (addNode fuel h st t.addr).1 b = h b) ∧
    t.linkOk ((addNode fuel h st t.addr).1)
  | 0, _, _, t, hfu, _, _ =>
    absurd hfu (by have := fuelNeed_pos_t t; omega)
  | fuel + 1, h, st, .node a ts, hfu, hsh, hnd => by
    rw [show (RTree.node a ts).addr = a from rfl, show (RTree.node a ts).forest = ts from rfl]
    have hroots : getChildren h a = ts.roots := hsh.1
    cases hch : (h a).children with
    | none =>
      have hnil : ts.roots = [] := by rw [← hroots]; simp [getChildren, hch]
      have hts : ts = .fnil := roots_eq_nil ts hnil
      subst hts
      have heq : (addNode (fuel + 1) h st a).1 = h := by
        rw [addNode_succ, hch]
      rw [heq]
      refine ⟨fun b => ⟨rfl, rfl⟩, fun b _ => rfl, ?_, trivial⟩
      intro i c hic
      rw [show RForest.fnil.roots = ([] : List Nat) from rfl] at hic
      simp at hic
    | some cs =>
      have hcs : cs = ts.roots := by
        have hgc : getChildren h a = cs := by simp [getChildren, hch]
        exact hgc.symm.trans hroots
      have heq : addNode (fuel + 1) h st a =
          addNodeChildren fuel h (stSet st (h a).nid a) a ts.roots 0 := by
        rw [addNode_succ, hch, hcs]
      have hfu' : ts.fuelNeed ≤ fuel := by
        have h1 := hfu
        simp [RTree.fuelNeed] at h1
        omega
      obtain ⟨hcni, hframe, hfnil, hpatch, hsib, hlink⟩ :=
        addNode_spec_f fuel h (stSet st (h a).nid a) a [] ts hfu'
          (by rw [List.nil_append]; exact hroots) hsh.2
          (by rw [List.nil_append]; rw [addrs_node] at hnd; exact hnd)
      simp only [List.length_nil, List.nil_append] at hcni hframe hfnil hpatch hsib hlink
      rw [heq]
      refine ⟨hcni, fun b hb => hframe b hb (Or.inl (by trivial)), ?_, hlink⟩
      intro i c hic
      exact hsib i c hic (Nat.zero_le i)

/-- Establishment for the `children.forEach` loop of addNode: the loop over
the suffix `ts` of the parent's children (the prefix `pre` is already done)
rewrites no children/id field, touches only `ts`'s addresses plus the
previous child (whose nextSibling it patches), and establishes the sibling
fields of every child from position `pre.length` on, and all links below. -/
theorem addNode_spec_f : ∀ (fuel : Nat) (h : Heap) (st : Store) (p : Nat) (pre : List Nat)
    (ts : RForest), ts.fuelNeed ≤ fuel → getChildren h p = pre ++ ts.roots →
    ts.shapeOk h → (p :: (pre ++ ts.addrs)).Nodup →
    (∀ b, (((addNodeChildren fuel h st p ts.roots pre.length).1) b).children =
        (h b).children ∧
      (((addNodeChildren fuel h st p ts.roots pre.length).1) b).nid = (h b).nid) ∧
    (∀ b, b ∉ ts.addrs →
      (pre.length = 0 ∨ (pre ++ ts.roots).get? (pre.length - 1) ≠ some b) →
      (addNodeChildren fuel h st p ts.roots pre.length).1 b = h b) ∧
    (ts = .fnil → (addNodeChildren fuel h st p ts.roots pre.length).1 = h) ∧
    (∀ pa t1 f1, pre.length ≠ 0 → (pre ++ ts.roots).get? (pre.length - 1) = some pa →
      ts = .fcons t1 f1 →
      (addNodeChildren fuel h st p ts.roots pre.length).1 pa =
        { h pa with nextSibling := some t1.addr }) ∧
    (∀ i c, (pre ++ ts.roots).get? i = some c → pre.length ≤ i →
      (((addNodeChildren fuel h st p ts.roots pre.length).1) c).parent = some p ∧
      (((addNodeChildren fuel h st p ts.roots pre.length).1) c).previousSibling =
        (if i = 0 then none else (pre ++ ts.roots).get? (i - 1)) ∧
      (((addNodeChildren fuel h st p ts.roots pre.length).1) c).nextSibling =
        (pre ++ ts.roots).get? (i + 1)) ∧
    ts.linkOk ((addNodeChildren fuel h st p ts.roots pre.length).1)
  | 0, _, _, _, _, ts, hfu, _, _, _ =>
    absurd hfu (by have := fuelNeed_pos_f ts; omega)
  | fuel + 1, h, st, p, pre, .fnil, _, _, _, _ => by
    refine ⟨fun b => ⟨rfl, rfl⟩, fun b _ _ => rfl, fun _ => rfl, ?_, ?_, trivial⟩
    · intro pa t1 f1 _ _ hcons
      cases hcons
    · intro i c hic hki
      rw [show RForest.fnil.roots = ([] : List Nat) from rfl, List.append_nil] at hic
      obtain ⟨hlt, _⟩ := List.get?_eq_some.mp hic
      omega
  | fuel + 1, h, st, p, pre, .fcons t0 rest, hfu, hpc, hsh, hnd => by
    rw [show (RForest.fcons t0 rest).roots = t0.addr :: rest.roots from rfl] at hpc ⊢
    rw [show (RForest.fcons t0 rest).addrs = t0.addrs ++ rest.addrs from rfl] at hnd ⊢
    rw [addNodeChildren_succ_cons]
    have hfuT : t0.fuelNeed ≤ fuel := by
      have h1 := hfu; simp [RForest.fuelNeed] at h1; omega
    have hfuF : rest.fuelNeed ≤ fuel := by
      have h1 := hfu; simp [RForest.fuelNeed] at h1; omega
    have ht0addrs : t0.addrs = t0.addr :: t0.forest.addrs := addrs_eq_addr_cons t0
    have hndtail : (pre ++ (t0.addrs ++ rest.addrs)).Nodup := (List.nodup_cons.mp hnd).2
    have hpnotin : p ∉ pre ++ (t0.addrs ++ rest.addrs) := (List.nodup_cons.mp hnd).1
    obtain ⟨hndpre, hndTR, hdisj⟩ := List.nodup_append.mp hndtail
    obtain ⟨hndT, hndR, hdisjTR⟩ := List.nodup_append.mp hndTR
    have ht0mem : t0.addr ∈ t0.addrs := by rw [ht0addrs]; exact List.mem_cons_self _ _
    have ht0notpre : t0.addr ∉ pre := fun hmem => hdisj hmem (List.mem_append_left _ ht0mem)
    have ht0notrest : t0.addr ∉ rest.addrs := fun hmem => hdisjTR ht0mem hmem
    have ht0notsub : t0.addr ∉ t0.forest.addrs := by
      have h1 := hndT
      rw [ht0addrs] at h1
      exact (List.nodup_cons.mp h1).1
    have hget_k : (pre ++ t0.addr :: rest.roots).get? pre.length = some t0.addr :=
      get?_at_split pre t0.addr rest.roots
    obtain ⟨psv, hps⟩ : ∃ o, (if pre.length = 0 then none
        else (getChildren h p).get? (pre.length - 1)) = o := ⟨_, rfl⟩
    obtain ⟨nsv, hns⟩ : ∃ o, (getChildren h p).get? (pre.length + 1) = o := ⟨_, rfl⟩
    obtain ⟨SP1, SP2, SP3, SP4, SP5⟩ :=
      setParent_eval h t0.addr pre.length p psv nsv hps hns
    rw [hpc] at hps hns
    have hpsv_pre : ∀ x, psv = some x → x ∈ pre := by
      intro x hx
      by_cases h0 : pre.length = 0
      · rw [if_pos h0] at hps
        rw [← hps] at hx
        simp at hx
      · rw [if_neg h0] at hps
        have hlt : pre.length - 1 < pre.length := by omega
        rw [get?_pre_append pre _ _ hlt] at hps
        exact List.get?_mem (hps.trans hx)
    have hnsv_rest : ∀ x, nsv = some x → x ∈ rest.addrs := by
      intro x hx
      have h0 : rest.roots.get? 0 = some x :=
        ((get?_after_split pre t0.addr rest.roots).symm.trans hns).trans hx
      exact (roots_sublist_addrs rest).mem (List.get?_mem h0)
    have hpsne0 : psv ≠ some t0.addr := fun hx => ht0notpre (hpsv_pre _ hx)
    have hnsne0 : nsv ≠ some t0.addr := fun hx => ht0notrest (hnsv_rest _ hx)
    have hshT1 : t0.shapeOk (setParent h t0.addr pre.length p) :=
      shapeOk_congr_t t0 h _ (fun b _ => (SP1 b).1) hsh.1
    obtain ⟨AN1, AN2, AN3⟩ :=
      addNode_spec_t fuel (setParent h t0.addr pre.length p) st t0 hfuT hshT1 hndT
    have hcomb1 : ∀ b,
        ((addNode fuel (setParent h t0.addr pre.length p) st t0.addr).1 b).children =
          (h b).children ∧
        ((addNode fuel (setParent h t0.addr pre.length p) st t0.addr).1 b).nid =
          (h b).nid :=
      fun b => ⟨(AN1 b).1.trans (SP1 b).1, (AN1 b).2.trans (SP1 b).2⟩
    have hpc2 : getChildren (addNode fuel (setParent h t0.addr pre.length p) st t0.addr).1 p =
        (pre ++ [t0.addr]) ++ rest.roots := by
      show (((addNode fuel (setParent h t0.addr pre.length p) st t0.addr).1 p).children).getD
        [] = _
      rw [(hcomb1 p).1]
      show getChildren h p = _
      rw [hpc]
      simp
    have hshR2 : rest.shapeOk (addNode fuel (setParent h t0.addr pre.length p) st t0.addr).1 :=
      shapeOk_congr_f rest h _ (fun b _ => (hcomb1 b).1) hsh.2
    have hsubl : ((pre ++ [t0.addr]) ++ rest.addrs).Sublist (pre ++ (t0.addrs ++ rest.addrs)) := by
      rw [List.append_assoc]
      apply List.Sublist.append_left
      show (t0.addr :: rest.addrs).Sublist _
      rw [ht0addrs, List.cons_append]
      exact (List.sublist_append_right t0.forest.addrs rest.addrs).cons₂ t0.addr
    have hnd' : (p :: ((pre ++ [t0.addr]) ++ rest.addrs)).Nodup :=
      hnd.sublist (hsubl.cons₂ p)
    obtain ⟨RC1, RC2, RC3, RC4, RC5, RC6⟩ :=
      addNode_spec_f fuel (addNode fuel (setParent h t0.addr pre.length p) st t0.addr).1
        (addNode fuel (setParent h t0.addr pre.length p) st t0.addr).2 p (pre ++ [t0.addr])
        rest hfuF hpc2 hshR2 hnd'
    have hlen2 : (pre ++ [t0.addr]).length = pre.length + 1 := by simp
    have hassoc : (pre ++ [t0.addr]) ++ rest.roots = pre ++ t0.addr :: rest.roots := by simp
    simp only [hlen2, hassoc, Nat.add_sub_cancel] at RC1 RC2 RC3 RC4 RC5 RC6
    refine ⟨?_, ?_, ?_, ?_, ?_, ?_⟩
    · intro b
      exact ⟨((RC1 b).1.trans (AN1 b).1).trans (SP1 b).1,
             ((RC1 b).2.trans (AN1 b).2).trans (SP1 b).2⟩
    · intro b hb hcond
      have hbT : b ∉ t0.addrs := fun hx => hb (List.mem_append_left _ hx)
      have hbR : b ∉ rest.addrs := fun hx => hb (List.mem_append_right _ hx)
      have hbne : b ≠ t0.addr := fun he => hbT (by rw [he]; exact ht0mem)
      have hbsub : b ∉ t0.forest.addrs := fun hx =>
        hbT (by rw [ht0addrs]; exact List.mem_cons_of_mem _ hx)
      have hpsvb : psv ≠ some b := by
        by_cases h0 : pre.length = 0
        · rw [if_pos h0] at hps
          rw [← hps]
          simp
        · rcases hcond with h0' | hco
          · exact absurd h0' h0
          · rw [if_neg h0] at hps
            rw [← hps]
            exact hco
      have hnsvb : nsv ≠ some b := fun hx => hbR (hnsv_rest _ hx)
      rw [RC2 b hbR (Or.inr (by
        rw [hget_k]; intro he; exact hbne (Option.some.inj he).symm)), AN2 b hbsub]
      exact SP2 b hbne hpsvb hnsvb
    · intro hcons
      cases hcons
    · intro pa t1 f1 hk0 hpa hcons
      injection hcons with he1 he2
      subst he1
      subst he2
      have hlt : pre.length - 1 < pre.length := by omega
      have hpre : pre.get? (pre.length - 1) = some pa := by
        rw [← get?_pre_append pre (t0.addr :: rest.roots) _ hlt]
        exact hpa
      have hpamem : pa ∈ pre := List.get?_mem hpre
      have hpane : pa ≠ t0.addr := fun he => ht0notpre (he ▸ hpamem)
      have hpaR : pa ∉ rest.addrs := fun hx => hdisj hpamem (List.mem_append_right _ hx)
      have hpasub : pa ∉ t0.forest.addrs := fun hx =>
        hdisj hpamem (List.mem_append_left _ (by
          rw [ht0addrs]; exact List.mem_cons_of_mem _ hx))
      have hpsveq : psv = some pa := by
        rw [if_neg hk0] at hps
        exact hps.symm.trans hpa
      have hnsvpa : nsv ≠ some pa := fun hx => hpaR (hnsv_rest _ hx)
      rw [RC2 pa hpaR (Or.inr (by
        rw [hget_k]; intro he; exact hpane (Option.some.inj he).symm)), AN2 pa hpasub]
      exact SP4 pa hpsveq hpane hnsvpa
    · intro i c hic hki
      rcases Nat.eq_or_lt_of_le hki with heq | hlt
      · subst heq
        rw [hget_k] at hic
        have hc0 : c = t0.addr := (Option.some.inj hic).symm
        subst hc0
        have hc2 : (addNode fuel (setParent h t0.addr pre.length p) st t0.addr).1 t0.addr =
            { h t0.addr with parent := some p, previousSibling := psv, nextSibling := nsv } := by
          rw [AN2 t0.addr ht0notsub]
          exact SP3 hpsne0 hnsne0
        rcases rest with _ | ⟨t1, f1⟩
        · rw [RC3 rfl, hc2]
          refine ⟨rfl, ?_, ?_⟩
          · exact hps.symm
          · exact hns.symm
        · rw [RC4 t0.addr t1 f1 (by omega) hget_k rfl, hc2]
          refine ⟨rfl, ?_, ?_⟩
          · exact hps.symm
          · rw [get?_after_split]
            rfl
      · exact RC5 i c hic (by omega)
    · refine ⟨?_, RC6⟩
      apply linkOk_congr_t t0 _ _ ?_ AN3
      intro b hb
      have hbT : b ∈ t0.addrs := by rw [ht0addrs]; exact List.mem_cons_of_mem _ hb
      have hbR : b ∉ rest.addrs := fun hx => hdisjTR hbT hx
      have hbne : b ≠ t0.addr := fun he => ht0notsub (he ▸ hb)
      exact RC2 b hbR (Or.inr (by
        rw [hget_k]; intro he; exact hbne (Option.some.inj he).symm))
end

mutual
/-- Witness-level effect of installing a new child forest under address `p`
(what a passing setChildren leaves behind, and — with a component erased —
what CompositeTreeNode.removeChild leaves behind). -/
def RTree.graft (p : Nat) (new : RForest) : RTree → RTree
  | .node a ts => if a = p then .node a new else .node a (RForest.graftF p new ts)
def RForest.graftF (p : Nat) (new : RForest) : RForest → RForest
  | .fnil => .fnil
  | .fcons t rest => .fcons (RTree.graft p new t) (RForest.graftF p new rest)
end

theorem addrs_fcons (t : RTree) (ts : RForest) :
    (RForest.fcons t ts).addrs = t.addrs ++ ts.addrs := rfl

theorem addrs_fnil : RForest.fnil.addrs = ([] : List Nat) := rfl

theorem roots_fcons (t : RTree) (ts : RForest) :
    (RForest.fcons t ts).roots = t.addr :: ts.roots := rfl

theorem graft_eq_pos (p : Nat) (new : RForest) (a : Nat) (ts : RForest) (h : a = p) :
    RTree.graft p new (RTree.node a ts) = RTree.node a new := by
  show (if a = p then RTree.node a new else RTree.node a (RForest.graftF p new ts)) = _
  rw [if_pos h]

theorem graft_eq_neg (p : Nat) (new : RForest) (a : Nat) (ts : RForest) (h : ¬(a = p)) :
    RTree.graft p new (RTree.node a ts) = RTree.node a (RForest.graftF p new ts) := by
  show (if a = p then RTree.node a new else RTree.node a (RForest.graftF p new ts)) = _
  rw [if_neg h]

theorem graftF_fcons (p : Nat) (new : RForest) (t : RTree) (rest : RForest) :
    RForest.graftF p new (RForest.fcons t rest) =
      RForest.fcons (RTree.graft p new t) (RForest.graftF p new rest) := rfl

theorem graft_addr (p : Nat) (new : RForest) : ∀ t : RTree, (RTree.graft p new t).addr = t.addr
  | .node a ts => by
    by_cases hap : a = p
    · rw [graft_eq_pos p new a ts hap]
      rfl
    · rw [graft_eq_neg p new a ts hap]
      rfl

theorem graftF_roots (p : Nat) (new : RForest) :
    ∀ ts : RForest, (RForest.graftF p new ts).roots = ts.roots
  | .fnil => rfl
  | .fcons t rest => by
    rw [graftF_fcons, roots_fcons, roots_fcons, graft_addr, graftF_roots p new rest]

mutual
theorem graft_id_t (p : Nat) (new : RForest) : ∀ t : RTree, p ∉ t.addrs →
    RTree.graft p new t = t
  | .node a ts, hp => by
    rw [addrs_node] at hp
    have hap : ¬(a = p) := fun he => hp (by rw [he]; exact List.mem_cons_self _ _)
    rw [graft_eq_neg p new a ts hap,
        graft_id_f p new ts (fun hm => hp (List.mem_cons_of_mem _ hm))]
theorem graft_id_f (p : Nat) (new : RForest) : ∀ ts : RForest, p ∉ ts.addrs →
    RForest.graftF p new ts = ts
  | .fnil, _ => rfl
  | .fcons t rest, hp => by
    rw [addrs_fcons] at hp
    rw [graftF_fcons, graft_id_t p new t (fun hm => hp (List.mem_append_left _ hm)),
        graft_id_f p new rest (fun hm => hp (List.mem_append_right _ hm))]
end

mutual
theorem mem_graft_self_t (p : Nat) (new : RForest) : ∀ t : RTree, p ∈ t.addrs →
    p ∈ (RTree.graft p new t).addrs
  | .node a ts, hp => by
    by_cases hap : a = p
    · rw [graft_eq_pos p new a ts hap, addrs_node, hap]
      exact List.mem_cons_self _ _
    · rw [graft_eq_neg p new a ts hap, addrs_node]
      refine List.mem_cons_of_mem _ ?_
      rw [addrs_node] at hp
      rcases List.mem_cons.mp hp with he | hm
      · exact absurd he.symm hap
      · exact mem_graft_self_f p new ts hm
theorem mem_graft_self_f (p : Nat) (new : RForest) : ∀ ts : RForest, p ∈ ts.addrs →
    p ∈ (RForest.graftF p new ts).addrs
  | .fnil, hp => by rw [addrs_fnil] at hp; exact absurd hp (List.not_mem_nil p)
  | .fcons t rest, hp => by
    rw [addrs_fcons] at hp
    rw [graftF_fcons, addrs_fcons]
    rcases List.mem_append.mp hp with hm | hm
    · exact List.mem_append_left _ (mem_graft_self_t p new t hm)
    · exact List.mem_append_right _ (mem_graft_self_f p new rest hm)
end

mutual
/-- Grafting splits the addresses: the grafted tree's addresses are (up to
permutation) the kept addresses (graft with the empty forest) plus the new
forest's addresses. -/
theorem graft_perm_t (p : Nat) (new : RForest) : ∀ t : RTree, t.addrs.Nodup → p ∈ t.addrs →
    ((RTree.graft p new t).addrs).Perm
      ((RTree.graft p RForest.fnil t).addrs ++ new.addrs)
  | .node a ts, hnd, hp => by
    by_cases hap : a = p
    · rw [graft_eq_pos p new a ts hap, graft_eq_pos p RForest.fnil a ts hap,
          addrs_node, addrs_node, addrs_fnil]
      simp
    · rw [graft_eq_neg p new a ts hap, graft_eq_neg p RForest.fnil a ts hap,
          addrs_node, addrs_node, List.cons_append]
      refine List.Perm.cons a ?_
      rw [addrs_node] at hnd hp
      refine graft_perm_f p new ts (List.nodup_cons.mp hnd).2 ?_
      rcases List.mem_cons.mp hp with he | hm
      · exact absurd he.symm hap
      · exact hm
theorem graft_perm_f (p : Nat) (new : RForest) : ∀ ts : RForest, ts.addrs.Nodup →
    p ∈ ts.addrs →
    ((RForest.graftF p new ts).addrs).Perm
      ((RForest.graftF p RForest.fnil ts).addrs ++ new.addrs)
  | .fnil, _, hp => by rw [addrs_fnil] at hp; exact absurd hp (List.not_mem_nil p)
  | .fcons t rest, hnd, hp => by
    rw [addrs_fcons] at hnd hp
    obtain ⟨hndt, hndr, hdisj⟩ := List.nodup_append.mp hnd
    rw [graftF_fcons, graftF_fcons, addrs_fcons, addrs_fcons]
    by_cases hpt : p ∈ t.addrs
    · have hpr : p ∉ rest.addrs := fun hm => hdisj hpt hm
      rw [graft_id_f p new rest hpr, graft_id_f p RForest.fnil rest hpr]
      have h1 := (graft_perm_t p new t hndt hpt).append_right rest.addrs
      refine h1.trans ?_
      rw [List.append_assoc, List.append_assoc]
      exact List.Perm.append_left _ List.perm_append_comm
    · have hpr : p ∈ rest.addrs := by
        rcases List.mem_append.mp hp with hm | hm
        · exact absurd hm hpt
        · exact hm
      rw [graft_id_t p new t hpt, graft_id_t p RForest.fnil t hpt, List.append_assoc]
      exact List.Perm.append_left t.addrs (graft_perm_f p new rest hndr hpr)
end

/-- Drop the i-th component of a forest (the witness-level splice of
CompositeTreeNode.removeChild). -/
def RForest.eraseComp : RForest → Nat → RForest
  | .fnil, _ => .fnil
  | .fcons _ rest, 0 => rest
  | .fcons t rest, i + 1 => .fcons t (rest.eraseComp i)

theorem eraseComp_roots : ∀ (ts : RForest) (i : Nat),
    (ts.eraseComp i).roots = ts.roots.eraseIdx i
  | .fnil, _ => by
    show RForest.fnil.roots = RForest.fnil.roots.eraseIdx _
    rw [show RForest.fnil.roots = ([] : List Nat) from rfl]
    rfl
  | .fcons _ rest, 0 => rfl
  | .fcons t rest, i + 1 => by
    show (RForest.fcons t (rest.eraseComp i)).roots = _
    rw [roots_fcons, roots_fcons, List.eraseIdx_cons_succ, eraseComp_roots rest i]

theorem eraseComp_addrs_sublist : ∀ (ts : RForest) (i : Nat),
    ((ts.eraseComp i).addrs).Sublist ts.addrs
  | .fnil, _ => List.Sublist.refl _
  | .fcons t rest, 0 => by
    show rest.addrs.Sublist (RForest.fcons t rest).addrs
    rw [addrs_fcons]
    exact List.sublist_append_right t.addrs rest.addrs
  | .fcons t rest, i + 1 => by
    show (RForest.fcons t (rest.eraseComp i)).addrs.Sublist _
    rw [addrs_fcons, addrs_fcons]
    exact List.Sublist.append_left (eraseComp_addrs_sublist rest i) t.addrs

theorem eraseComp_shapeOk (h : Heap) : ∀ (ts : RForest) (i : Nat),
    ts.shapeOk h → (ts.eraseComp i).shapeOk h
  | .fnil, _, _ => trivial
  | .fcons _ rest, 0, hok => hok.2
  | .fcons t rest, i + 1, hok => by
    show (RForest.fcons t (rest.eraseComp i)).shapeOk h
    exact ⟨hok.1, eraseComp_shapeOk h rest i hok.2⟩

theorem eraseComp_linkOk (h : Heap) : ∀ (ts : RForest) (i : Nat),
    ts.linkOk h → (ts.eraseComp i).linkOk h
  | .fnil, _, _ => trivial
  | .fcons _ rest, 0, hok => hok.2
  | .fcons t rest, i + 1, hok => by
    show (RForest.fcons t (rest.eraseComp i)).linkOk h
    exact ⟨hok.1, eraseComp_linkOk h rest i hok.2⟩

/-- Forest link consistency only constrains nodes strictly below the roots,
so it transports along any heap change that keeps these. -/
theorem linkOk_congr_comps : ∀ (ts : RForest) (h h' : Heap), ts.addrs.Nodup →
    (∀ a, a ∈ ts.addrs → a ∉ ts.roots → h' a = h a) → ts.linkOk h → ts.linkOk h'
  | .fnil, _, _, _, _, _ => trivial
  | .fcons t rest, h, h', hnd, hag, hok => by
    rw [addrs_fcons] at hnd
    obtain ⟨hndt, hndr, hdisj⟩ := List.nodup_append.mp hnd
    refine ⟨?_, ?_⟩
    · refine linkOk_congr_t t h h' ?_ hok.1
      intro a ha
      refine hag a ?_ ?_
      · rw [addrs_fcons]
        refine List.mem_append_left _ ?_
        rw [addrs_eq_addr_cons t]
        exact List.mem_cons_of_mem _ ha
      · rw [roots_fcons]
        intro hmem
        rcases List.mem_cons.mp hmem with he | hm
        · have hni : t.addr ∉ t.forest.addrs := by
            have h2 := hndt
            rw [addrs_eq_addr_cons t] at h2
            exact (List.nodup_cons.mp h2).1
          exact hni (he ▸ ha)
        · have hat : a ∈ t.addrs := by
            rw [addrs_eq_addr_cons t]
            exact List.mem_cons_of_mem _ ha
          exact hdisj hat ((roots_sublist_addrs rest).mem hm)
    · refine linkOk_congr_comps rest h h' hndr ?_ hok.2
      intro a ha har
      refine hag a (by rw [addrs_fcons]; exact List.mem_append_right _ ha) ?_
      rw [roots_fcons]
      intro hmem
      rcases List.mem_cons.mp hmem with he | hm
      · refine hdisj ?_ ha
        rw [he, addrs_eq_addr_cons t]
        exact List.mem_cons_self _ _
      · exact har hm

mutual
/-- Graft preservation: a heap mutation that (a) sets `p`'s children array to
the new forest's roots and keeps every other children array, (b) keeps the
parent/sibling fields of every node outside the new forest, and (c)
establishes parent/sibling consistency of the new forest under `p`, turns a
consistent heap for `t` into a consistent heap for `t` with the new forest
grafted at `p` — provided the kept addresses avoid the new forest's. -/
theorem graft_ok_t (p : Nat) (new : RForest) (h0 h2 : Heap)
    (hch : ∀ b, b ≠ p → (h2 b).children = (h0 b).children)
    (hchp : getChildren h2 p = new.roots)
    (hfields : ∀ b, b ∉ new.addrs →
      (h2 b).parent = (h0 b).parent ∧
      (h2 b).previousSibling = (h0 b).previousSibling ∧
      (h2 b).nextSibling = (h0 b).nextSibling)
    (hsibp : sibList h2 p new.roots)
    (hnewsh : new.shapeOk h2) (hnewlk : new.linkOk h2) :
    ∀ t : RTree, t.shapeOk h0 → t.linkOk h0 →
      ((RTree.graft p RForest.fnil t).addrs).Disjoint new.addrs →
      (RTree.graft p new t).shapeOk h2 ∧ (RTree.graft p new t).linkOk h2
  | .node a ts, hsh, hlk, hdloc => by
    by_cases hap : a = p
    · rw [graft_eq_pos p new a ts hap]
      subst hap
      exact ⟨⟨hchp, hnewsh⟩, hsibp, hnewlk⟩
    · rw [graft_eq_neg p new a ts hap]
      have hdloc' : ((RForest.graftF p RForest.fnil ts).addrs).Disjoint new.addrs := by
        intro x hx hxn
        refine hdloc ?_ hxn
        rw [graft_eq_neg p RForest.fnil a ts hap, addrs_node]
        exact List.mem_cons_of_mem _ hx
      have hrec := graft_ok_f p new h0 h2 hch hchp hfields hsibp hnewsh hnewlk ts
        hsh.2 hlk.2 hdloc'
      refine ⟨⟨?_, hrec.1⟩, ?_, hrec.2⟩
      · show ((h2 a).children).getD [] = _
        rw [hch a hap, graftF_roots]
        exact hsh.1
      · rw [graftF_roots]
        intro i c hic
        have hcm : c ∈ ts.roots := List.get?_mem hic
        have hckept : c ∈ (RForest.graftF p RForest.fnil ts).addrs := by
          refine (roots_sublist_addrs _).mem ?_
          rw [graftF_roots]
          exact hcm
        have hcnot : c ∉ new.addrs := fun hx => hdloc' hckept hx
        obtain ⟨hf1, hf2, hf3⟩ := hfields c hcnot
        obtain ⟨ho1, ho2, ho3⟩ := hlk.1 i c hic
        exact ⟨hf1.trans ho1, hf2.trans ho2, hf3.trans ho3⟩
theorem graft_ok_f (p : Nat) (new : RForest) (h0 h2 : Heap)
    (hch : ∀ b, b ≠ p → (h2 b).children = (h0 b).children)
    (hchp : getChildren h2 p = new.roots)
    (hfields : ∀ b, b ∉ new.addrs →
      (h2 b).parent = (h0 b).parent ∧
      (h2 b).previousSibling = (h0 b).previousSibling ∧
      (h2 b).nextSibling = (h0 b).nextSibling)
    (hsibp : sibList h2 p new.roots)
    (hnewsh : new.shapeOk h2) (hnewlk : new.linkOk h2) :
    ∀ ts : RForest, ts.shapeOk h0 → ts.linkOk h0 →
      ((RForest.graftF p RForest.fnil ts).addrs).Disjoint new.addrs →
      (RForest.graftF p new ts).shapeOk h2 ∧ (RForest.graftF p new ts).linkOk h2
  | .fnil, _, _, _ => ⟨trivial, trivial⟩
  | .fcons t rest, hsh, hlk, hdloc => by
    rw [graftF_fcons]
    have hdt : ((RTree.graft p RForest.fnil t).addrs).Disjoint new.addrs := by
      intro x hx hxn
      refine hdloc ?_ hxn
      rw [graftF_fcons, addrs_fcons]
      exact List.mem_append_left _ hx
    have hdr : ((RForest.graftF p RForest.fnil rest).addrs).Disjoint new.addrs := by
      intro x hx hxn
      refine hdloc ?_ hxn
      rw [graftF_fcons, addrs_fcons]
      exact List.mem_append_right _ hx
    have h1 := graft_ok_t p new h0 h2 hch hchp hfields hsibp hnewsh hnewlk t hsh.1 hlk.1 hdt
    have hr := graft_ok_f p new h0 h2 hch hchp hfields hsibp hnewsh hnewlk rest
      hsh.2 hlk.2 hdr
    exact ⟨⟨h1.1, hr.1⟩, h1.2, hr.2⟩
end

/-- The mutation path of TreeImpl.setChildren — install the new children
array at `p`, then re-add the subtree — turns a heap consistent with `T`
into a heap consistent with `T.graft p ts'`, keeps every record outside the
new forest and `p`, and keeps `p`'s parent pointer. -/
theorem graft_install_ok (fuel : Nat) (h0 : Heap) (st1 : Store) (p : Nat)
    (T : RTree) (ts' : RForest)
    (hsh : T.shapeOk h0) (hlk : T.linkOk h0) (hnd : T.addrs.Nodup)
    (hp : p ∈ T.addrs)
    (hfu : RTree.fuelNeed (RTree.node p ts') ≤ fuel)
    (hssh : ts'.shapeOk h0)
    (hnd2 : (p :: ts'.addrs).Nodup)
    (hndG : ((RTree.graft p ts' T).addrs).Nodup) :
    (RTree.graft p ts' T).shapeOk
      (addNode fuel (hUpdate h0 p { h0 p with children := some ts'.roots }) st1 p).1 ∧
    (RTree.graft p ts' T).linkOk
      (addNode fuel (hUpdate h0 p { h0 p with children := some ts'.roots }) st1 p).1 ∧
    (∀ b, b ∉ ts'.addrs → b ≠ p →
      (addNode fuel (hUpdate h0 p { h0 p with children := some ts'.roots }) st1 p).1 b =
        h0 b) ∧
    ((addNode fuel (hUpdate h0 p { h0 p with children := some ts'.roots }) st1 p).1
        p).parent = (h0 p).parent := by
  have hpn : p ∉ ts'.addrs := (List.nodup_cons.mp hnd2).1
  have hsh1 : (RTree.node p ts').shapeOk
      (hUpdate h0 p { h0 p with children := some ts'.roots }) := by
    refine ⟨?_, ?_⟩
    · show ((hUpdate h0 p { h0 p with children := some ts'.roots } p).children).getD [] = _
      rw [hUpdate_same]
      rfl
    · refine shapeOk_congr_f ts' h0 _ ?_ hssh
      intro b hb
      rw [hUpdate_ne h0 p _ b (fun he => hpn (he ▸ hb))]
  obtain ⟨AN1, AN2, AN3⟩ :=
    addNode_spec_t fuel (hUpdate h0 p { h0 p with children := some ts'.roots }) st1
      (RTree.node p ts') hfu hsh1 (by rw [addrs_node]; exact hnd2)
  rw [show (RTree.node p ts').addr = p from rfl] at AN1 AN2 AN3
  rw [show (RTree.node p ts').forest = ts' from rfl] at AN2
  have hch : ∀ b, b ≠ p →
      ((addNode fuel (hUpdate h0 p { h0 p with children := some ts'.roots }) st1 p).1
        b).children = (h0 b).children := by
    intro b hb
    rw [(AN1 b).1, hUpdate_ne h0 p _ b hb]
  have hchp : getChildren
      (addNode fuel (hUpdate h0 p { h0 p with children := some ts'.roots }) st1 p).1 p =
      ts'.roots := by
    show (((addNode fuel (hUpdate h0 p _) st1 p).1 p).children).getD [] = _
    rw [(AN1 p).1, hUpdate_same]
    rfl
  have hfields : ∀ b, b ∉ ts'.addrs →
      ((addNode fuel (hUpdate h0 p { h0 p with children := some ts'.roots }) st1 p).1
          b).parent = (h0 b).parent ∧
      ((addNode fuel (hUpdate h0 p { h0 p with children := some ts'.roots }) st1 p).1
          b).previousSibling = (h0 b).previousSibling ∧
      ((addNode fuel (hUpdate h0 p { h0 p with children := some ts'.roots }) st1 p).1
          b).nextSibling = (h0 b).nextSibling := by
    intro b hb
    rw [AN2 b hb]
    by_cases hbp : b = p
    · subst hbp
      rw [hUpdate_same]
      exact ⟨rfl, rfl, rfl⟩
    · rw [hUpdate_ne h0 p _ b hbp]
      exact ⟨rfl, rfl, rfl⟩
  have hnewsh : ts'.shapeOk
      (addNode fuel (hUpdate h0 p { h0 p with children := some ts'.roots }) st1 p).1 := by
    refine shapeOk_congr_f ts' _ _ ?_ hsh1.2
    intro b _
    exact (AN1 b).1
  have hperm := graft_perm_t p ts' T hnd hp
  have hndSplit : (((RTree.graft p RForest.fnil T).addrs) ++ ts'.addrs).Nodup :=
    (List.Perm.nodup_iff hperm).mp hndG
  have hdloc : ((RTree.graft p RForest.fnil T).addrs).Disjoint ts'.addrs :=
    (List.nodup_append.mp hndSplit).2.2
  obtain ⟨hgs, hgl⟩ :=
    graft_ok_t p ts' h0
      (addNode fuel (hUpdate h0 p { h0 p with children := some ts'.roots }) st1 p).1
      hch hchp hfields AN3.1 hnewsh AN3.2 T hsh hlk hdloc
  refine ⟨hgs, hgl, ?_, ?_⟩
  · intro b hb hbp
    rw [AN2 b hb, hUpdate_ne h0 p _ b hbp]
  · exact (hfields p hpn).1

theorem get?_eraseIdx : ∀ (l : List Nat) (i j : Nat),
    (l.eraseIdx i).get? j = if j < i then l.get? j else l.get? (j + 1)
  | [], i, j => by
    show ([] : List Nat).get? j = _
    simp
  | x :: l, 0, j => by
    show l.get? j = _
    rw [if_neg (Nat.not_lt_zero j)]
    rfl
  | x :: l, i + 1, 0 => by
    show (x :: l.eraseIdx i).get? 0 = _
    rw [if_pos (Nat.succ_pos i)]
    rfl
  | x :: l, i + 1, j + 1 => by
    show (x :: l.eraseIdx i).get? (j + 1) = _
    rw [show (x :: l.eraseIdx i).get? (j + 1) = (l.eraseIdx i).get? j from rfl,
        get?_eraseIdx l i j]
    by_cases hji : j < i
    · rw [if_pos hji, if_pos (by omega : j + 1 < i + 1)]
      rfl
    · rw [if_neg hji, if_neg (by omega : ¬(j + 1 < i + 1))]
      rfl

/-- Pointwise evaluation of CompositeTreeNode.removeChild on a found index:
only `p`'s children array and the removed child's two recorded neighbours
are written; ids are never written. -/
theorem removeChild_eval (h : Heap) (p c : Nat) (i : Nat)
    (hf : (getChildren h p).findIdx? (fun x => (h x).nid == (h c).nid) = some i)
    (pv nx : Option Nat)
    (hpv : (h c).previousSibling = pv) (hnx : (h c).nextSibling = nx)
    (hpvp : pv ≠ some p) (hnxp : nx ≠ some p) :
    (∀ b, ((removeChild h p c) b).children =
        (if b = p then some ((getChildren h p).eraseIdx i) else (h b).children) ∧
      ((removeChild h p c) b).nid = (h b).nid) ∧
    (∀ b, b ≠ p → pv ≠ some b → nx ≠ some b → removeChild h p c b = h b) ∧
    (∀ pa, pv = some pa → nx ≠ some pa →
      removeChild h p c pa = { h pa with nextSibling := nx }) ∧
    (∀ na, nx = some na → pv ≠ some na →
      removeChild h p c na = { h na with previousSibling := pv }) ∧
    removeChild h p c p = { h p with children := some ((getChildren h p).eraseIdx i) } := by
  have hppv : ∀ x, pv = some x → p ≠ x := fun x hx he => hpvp (by rw [hx, he])
  have hpnx : ∀ x, nx = some x → p ≠ x := fun x hx he => hnxp (by rw [hx, he])
  simp only [removeChild, hf, hpv, hnx]
  rcases pv with _ | pa <;> rcases nx with _ | na
  · refine ⟨fun b => ⟨?_, ?_⟩, fun b hbp _ _ => ?_, ?_, ?_, ?_⟩
    · by_cases hbp : b = p <;> simp [hUpdate, hbp]
    · by_cases hbp : b = p <;> simp [hUpdate, hbp]
    · simp [hUpdate, hbp]
    · rintro pa h1 _; exact absurd h1 (by simp)
    · rintro na h1 _; exact absurd h1 (by simp)
    · simp [hUpdate]
  · have hnap : na ≠ p := fun he => hnxp (by rw [he])
    refine ⟨fun b => ⟨?_, ?_⟩, fun b hbp _ hbna => ?_, ?_, ?_, ?_⟩
    · by_cases hbna : b = na <;> by_cases hbp : b = p <;> simp_all [hUpdate]
    · by_cases hbna : b = na <;> by_cases hbp : b = p <;> simp_all [hUpdate]
    · have h2 : b ≠ na := fun hh => hbna (by rw [hh])
      simp [hUpdate, hbp, h2]
    · rintro pa h1 _; exact absurd h1 (by simp)
    · rintro na' h1 _
      have hna' : na' = na := by simpa using h1.symm
      subst hna'
      simp [hUpdate, hnap]
    · simp [hUpdate, hnap.symm]
  · have hpap : pa ≠ p := fun he => hpvp (by rw [he])
    refine ⟨fun b => ⟨?_, ?_⟩, fun b hbp hbpa _ => ?_, ?_, ?_, ?_⟩
    · by_cases hbpa : b = pa <;> by_cases hbp : b = p <;> simp_all [hUpdate]
    · by_cases hbpa : b = pa <;> by_cases hbp : b = p <;> simp_all [hUpdate]
    · have h2 : b ≠ pa := fun hh => hbpa (by rw [hh])
      simp [hUpdate, hbp, h2]
    · rintro pa' h1 _
      have hpa' : pa' = pa := by simpa using h1.symm
      subst hpa'
      simp [hUpdate, hpap]
    · rintro na h1 _; exact absurd h1 (by simp)
    · simp [hUpdate, hpap.symm]
  · have hnap : na ≠ p := fun he => hnxp (by rw [he])
    have hpap : pa ≠ p := fun he => hpvp (by rw [he])
    refine ⟨fun b => ⟨?_, ?_⟩, fun b hbp hbpa hbna => ?_, ?_, ?_, ?_⟩
    · by_cases hbna : b = na <;> by_cases hbpa : b = pa <;> by_cases hbp : b = p <;>
        simp_all [hUpdate]
    · by_cases hbna : b = na <;> by_cases hbpa : b = pa <;> by_cases hbp : b = p <;>
        simp_all [hUpdate]
    · have h2 : b ≠ pa := fun hh => hbpa (by rw [hh])
      have h3 : b ≠ na := fun hh => hbna (by rw [hh])
      simp [hUpdate, hbp, h2, h3]
    · rintro pa' h1 hpa'nx
      have hpa' : pa' = pa := by simpa using h1.symm
      subst hpa'
      have h3 : pa' ≠ na := fun hh => hpa'nx (by rw [hh])
      simp [hUpdate, hpap, h3]
    · rintro na' h1 hna'pv
      have hna' : na' = na := by simpa using h1.symm
      subst hna'
      have h3 : na' ≠ pa := fun hh => hna'pv (by rw [hh])
      simp [hUpdate, hnap, h3]
    · simp [hUpdate, hnap.symm, hpap.symm]

/-- CompositeTreeNode.removeChild on a found child `c` (at index `i` of the
witness forest `F` under `p`) leaves a heap consistent with the witness
where `F`'s i-th component is spliced out; all records outside `F` and `p`
are untouched and `p` keeps its parent pointer. -/
theorem removeChild_graft_ok (h0 : Heap) (p c : Nat) (T : RTree) (F : RForest) (i : Nat)
    (hsh : T.shapeOk h0) (hlk : T.linkOk h0) (hnd : T.addrs.Nodup) (hp : p ∈ T.addrs)
    (hroots : getChildren h0 p = F.roots)
    (hf : (getChildren h0 p).findIdx? (fun x => (h0 x).nid == (h0 c).nid) = some i)
    (hfi : F.roots.get? i = some c)
    (hFsh : F.shapeOk h0) (hFlk : F.linkOk h0)
    (hndG : ((RTree.graft p F T).addrs).Nodup) :
    (RTree.graft p (RForest.eraseComp F i) T).shapeOk (removeChild h0 p c) ∧
    (RTree.graft p (RForest.eraseComp F i) T).linkOk (removeChild h0 p c) ∧
    (∀ b, b ∉ F.addrs → b ≠ p → removeChild h0 p c b = h0 b) ∧
    ((removeChild h0 p c) p).parent = (h0 p).parent ∧
    ((RTree.graft p (RForest.eraseComp F i) T).addrs).Nodup := by
  have hperm := graft_perm_t p F T hnd hp
  have hndSplit : (((RTree.graft p RForest.fnil T).addrs) ++ F.addrs).Nodup :=
    (List.Perm.nodup_iff hperm).mp hndG
  obtain ⟨hndKept, hndF, hdisjKF⟩ := List.nodup_append.mp hndSplit
  have hpkept : p ∈ (RTree.graft p RForest.fnil T).addrs :=
    mem_graft_self_t p RForest.fnil T hp
  have hpF : p ∉ F.addrs := fun hx => hdisjKF hpkept hx
  have hndRoots : F.roots.Nodup := hndF.sublist (roots_sublist_addrs F)
  have hsibp0 : sibList h0 p F.roots := by
    have h1 := sib_at_member_t T h0 hsh hlk p hp
    rw [hroots] at h1
    exact h1
  obtain ⟨hcpar, hcprev, hcnext⟩ := hsibp0 i c hfi
  obtain ⟨pv, hpv⟩ : ∃ o, (h0 c).previousSibling = o := ⟨_, rfl⟩
  obtain ⟨nx, hnx⟩ : ∃ o, (h0 c).nextSibling = o := ⟨_, rfl⟩
  have hpveq : pv = (if i = 0 then none else F.roots.get? (i - 1)) := hpv.symm.trans hcprev
  have hnxeq : nx = F.roots.get? (i + 1) := hnx.symm.trans hcnext
  have hmemroots : ∀ j x, F.roots.get? j = some x → x ∈ F.addrs :=
    fun j x hjx => (roots_sublist_addrs F).mem (List.get?_mem hjx)
  have hpvidx : ∀ x, pv = some x → i ≠ 0 ∧ F.roots.get? (i - 1) = some x := by
    intro x hx
    by_cases hi0 : i = 0
    · rw [hpveq, if_pos hi0] at hx
      exact absurd hx (by simp)
    · rw [hpveq, if_neg hi0] at hx
      exact ⟨hi0, hx⟩
  have hnxidx : ∀ x, nx = some x → F.roots.get? (i + 1) = some x := by
    intro x hx
    rw [← hnxeq]
    exact hx
  have hpvp : pv ≠ some p := fun hx => hpF (hmemroots _ _ (hpvidx _ hx).2)
  have hnxp : nx ≠ some p := fun hx => hpF (hmemroots _ _ (hnxidx _ hx))
  obtain ⟨RE1, RE2, RE3, RE4, RE5⟩ := removeChild_eval h0 p c i hf pv nx hpv hnx hpvp hnxp
  have hinj : ∀ m n x, F.roots.get? m = some x → F.roots.get? n = some x → m = n := by
    intro m n x hm hn
    obtain ⟨hmlen, _⟩ := List.get?_eq_some.mp hm
    exact List.get?_inj hmlen hndRoots (hm.trans hn.symm)
  have hrootsE : (RForest.eraseComp F i).roots = F.roots.eraseIdx i := eraseComp_roots F i
  have hpvmem' : ∀ x, pv = some x → x ∈ (RForest.eraseComp F i).roots := by
    intro x hx
    obtain ⟨hi0, hgx⟩ := hpvidx x hx
    have hgx' : (F.roots.eraseIdx i).get? (i - 1) = some x := by
      rw [get?_eraseIdx, if_pos (by omega : i - 1 < i)]
      exact hgx
    rw [hrootsE]
    exact List.get?_mem hgx'
  have hnxmem' : ∀ x, nx = some x → x ∈ (RForest.eraseComp F i).roots := by
    intro x hx
    have hgx' : (F.roots.eraseIdx i).get? i = some x := by
      rw [get?_eraseIdx, if_neg (by omega : ¬(i < i))]
      exact hnxidx x hx
    rw [hrootsE]
    exact List.get?_mem hgx'
  have hsubF' : ((RForest.eraseComp F i).addrs).Sublist F.addrs := eraseComp_addrs_sublist F i
  have hndF' : ((RForest.eraseComp F i).addrs).Nodup := hndF.sublist hsubF'
  have hpF' : p ∉ (RForest.eraseComp F i).addrs := fun hx => hpF (hsubF'.mem hx)
  have hch : ∀ b, b ≠ p → ((removeChild h0 p c) b).children = (h0 b).children := by
    intro b hb
    rw [(RE1 b).1, if_neg hb]
  have hchp : getChildren (removeChild h0 p c) p = (RForest.eraseComp F i).roots := by
    show (((removeChild h0 p c) p).children).getD [] = _
    rw [(RE1 p).1, if_pos rfl, hroots, hrootsE]
    rfl
  have hfields : ∀ b, b ∉ (RForest.eraseComp F i).addrs →
      ((removeChild h0 p c) b).parent = (h0 b).parent ∧
      ((removeChild h0 p c) b).previousSibling = (h0 b).previousSibling ∧
      ((removeChild h0 p c) b).nextSibling = (h0 b).nextSibling := by
    intro b hb
    by_cases hbp : b = p
    · subst hbp
      rw [RE5]
      exact ⟨rfl, rfl, rfl⟩
    · have h1 : pv ≠ some b := fun hx =>
        hb ((roots_sublist_addrs _).mem (hpvmem' b hx))
      have h2 : nx ≠ some b := fun hx =>
        hb ((roots_sublist_addrs _).mem (hnxmem' b hx))
      rw [RE2 b hbp h1 h2]
      exact ⟨rfl, rfl, rfl⟩
  have hsibp2 : sibList (removeChild h0 p c) p (RForest.eraseComp F i).roots := by
    rw [hrootsE]
    intro j x hjx
    have hx0 := (get?_eraseIdx F.roots i j).symm.trans hjx
    by_cases hji : j < i
    · rw [if_pos hji] at hx0
      obtain ⟨hxpar, hxprev, hxnext⟩ := hsibp0 j x hx0
      have hxp : x ≠ p := fun he => hpF (he ▸ hmemroots j x hx0)
      by_cases hjpred : j = i - 1
      · have hpvx : pv = some x := by
          rw [hpveq, if_neg (by omega : ¬ i = 0), ← hjpred]
          exact hx0
        have hnxx : nx ≠ some x := by
          intro hx'
          have := hinj (i + 1) j x (hnxidx x hx') hx0
          omega
        rw [RE3 x hpvx hnxx]
        refine ⟨hxpar, ?_, ?_⟩
        · show (h0 x).previousSibling = _
          rw [hxprev]
          by_cases hj0 : j = 0
          · rw [if_pos hj0, if_pos hj0]
          · rw [if_neg hj0, if_neg hj0, get?_eraseIdx, if_pos (by omega : j - 1 < i)]
        · show nx = _
          rw [hnxeq, get?_eraseIdx, if_neg (by omega : ¬(j + 1 < i)),
              show j + 1 + 1 = i + 1 from by omega]
      · have hpvx : pv ≠ some x := by
          intro hx'
          obtain ⟨hi0, hg⟩ := hpvidx x hx'
          have := hinj (i - 1) j x hg hx0
          omega
        have hnxx : nx ≠ some x := by
          intro hx'
          have := hinj (i + 1) j x (hnxidx x hx') hx0
          omega
        rw [RE2 x hxp hpvx hnxx]
        refine ⟨hxpar, ?_, ?_⟩
        · rw [hxprev]
          by_cases hj0 : j = 0
          · rw [if_pos hj0, if_pos hj0]
          · rw [if_neg hj0, if_neg hj0, get?_eraseIdx, if_pos (by omega : j - 1 < i)]
        · rw [hxnext, get?_eraseIdx, if_pos (by omega : j + 1 < i)]
    · rw [if_neg hji] at hx0
      obtain ⟨hxpar, hxprev, hxnext⟩ := hsibp0 (j + 1) x hx0
      have hxp : x ≠ p := fun he => hpF (he ▸ hmemroots (j + 1) x hx0)
      by_cases hjeq : j = i
      · have hnxx : nx = some x := by
          rw [hnxeq, ← hjeq]
          exact hx0
        have hpvx : pv ≠ some x := by
          intro hx'
          obtain ⟨hi0, hg⟩ := hpvidx x hx'
          have := hinj (i - 1) (j + 1) x hg hx0
          omega
        rw [RE4 x hnxx hpvx]
        refine ⟨hxpar, ?_, ?_⟩
        · show pv = _
          rw [hpveq]
          by_cases hj0 : j = 0
          · rw [if_pos (by omega : i = 0), if_pos hj0]
          · rw [if_neg (by omega : ¬ i = 0), if_neg hj0, get?_eraseIdx,
                if_pos (by omega : j - 1 < i), show i - 1 = j - 1 from by omega]
        · show (h0 x).nextSibling = _
          rw [hxnext, get?_eraseIdx, if_neg (by omega : ¬(j + 1 < i))]
      · have hpvx : pv ≠ some x := by
          intro hx'
          obtain ⟨hi0, hg⟩ := hpvidx x hx'
          have := hinj (i - 1) (j + 1) x hg hx0
          omega
        have hnxx : nx ≠ some x := by
          intro hx'
          have := hinj (i + 1) (j + 1) x (hnxidx x hx') hx0
          omega
        rw [RE2 x hxp hpvx hnxx]
        refine ⟨hxpar, ?_, ?_⟩
        · rw [hxprev, if_neg (by omega : ¬(j + 1 = 0)), if_neg (by omega : ¬(j = 0)),
              get?_eraseIdx, if_neg (by omega : ¬(j - 1 < i))]
          rw [show j + 1 - 1 = j from by omega, show j - 1 + 1 = j from by omega]
        · rw [hxnext, get?_eraseIdx, if_neg (by omega : ¬(j + 1 < i))]
  have hnewsh : (RForest.eraseComp F i).shapeOk (removeChild h0 p c) := by
    refine shapeOk_congr_f _ h0 _ ?_ (eraseComp_shapeOk h0 F i hFsh)
    intro b hb
    exact hch b (fun he => hpF' (he ▸ hb))
  have hnewlk : (RForest.eraseComp F i).linkOk (removeChild h0 p c) := by
    refine linkOk_congr_comps _ h0 _ hndF' ?_ (eraseComp_linkOk h0 F i hFlk)
    intro a ha har
    have hap : a ≠ p := fun he => hpF' (he ▸ ha)
    have h1 : pv ≠ some a := fun hx => har (hpvmem' a hx)
    have h2 : nx ≠ some a := fun hx => har (hnxmem' a hx)
    exact RE2 a hap h1 h2
  have hdloc :
      ((RTree.graft p RForest.fnil T).addrs).Disjoint (RForest.eraseComp F i).addrs := by
    intro x hx hx'
    exact hdisjKF hx (hsubF'.mem hx')
  obtain ⟨hgs, hgl⟩ := graft_ok_t p (RForest.eraseComp F i) h0 (removeChild h0 p c)
    hch hchp hfields hsibp2 hnewsh hnewlk T hsh hlk hdloc
  have hperm' := graft_perm_t p (RForest.eraseComp F i) T hnd hp
  have hndG' : ((RTree.graft p (RForest.eraseComp F i) T).addrs).Nodup := by
    refine (List.Perm.nodup_iff hperm').mpr ?_
    refine List.nodup_append.mpr ⟨hndKept, hndF', ?_⟩
    intro x hx hx'
    exact hdisjKF hx (hsubF'.mem hx')
  refine ⟨hgs, hgl, ?_, ?_, hndG'⟩
  · intro b hb hbp
    have h1 : pv ≠ some b := fun hx => hb (hmemroots _ _ (hpvidx _ hx).2)
    have h2 : nx ≠ some b := fun hx => hb (hmemroots _ _ (hnxidx _ hx))
    exact RE2 b hbp h1 h2
  · rw [RE5]

theorem setChildren_none (fuel : Nat) (s : TreeState) (p : Nat) (cs : List Nat) :
    (setChildren fuel s p cs).2 = none → (setChildren fuel s p cs).1 = s := by
  intro h2
  rcases hgr : getRootNode fuel s.heap p with _ | r
  · simp [setChildren, hgr]
  · simp only [setChildren, hgr] at h2 ⊢
    split_ifs with hv
    · rfl
    · rw [if_neg hv] at h2
      simp at h2

theorem setChildren_pass (fuel : Nat) (s : TreeState) (p : Nat) (cs : List Nat) (r : Nat)
    (hr : getRootNode fuel s.heap p = some r)
    (hv : ¬((s.store (s.heap r).nid).isSome ∧ s.store (s.heap r).nid ≠ some r)) :
    (setChildren fuel s p cs).1 =
      ⟨(addNode fuel (hUpdate s.heap p { s.heap p with children := some cs })
          (removeNode fuel s.heap s.store p) p).1,
        (addNode fuel (hUpdate s.heap p { s.heap p with children := some cs })
          (removeNode fuel s.heap s.store p) p).2, s.root⟩ := by
  rcases hgr : getRootNode fuel s.heap p with _ | r2
  · rw [hgr] at hr
    exact absurd hr (by simp)
  · rw [hgr] at hr
    have hrr : r2 = r := by simpa using hr
    subst hrr
    simp only [setChildren, hgr]
    rw [if_neg hv]

theorem removeChild_noop (h : Heap) (p c : Nat)
    (hnone : (getChildren h p).findIdx? (fun x => (h x).nid == (h c).nid) = none) :
    removeChild h p c = h := by
  simp only [removeChild, hnone]

/-- Every refresh path leaves the state unchanged or equal to the state of
the corresponding setChildren (cancellation never rolls anything back). -/
theorem refresh_state_cases (fuel : Nat) (s : TreeState) (raw : Option Nat) (cs : List Nat)
    (cp : RefreshCancel) :
    (refresh fuel s raw cs cp).1 = s ∨
    ∃ p, (refresh fuel s raw cs cp).1 = (setChildren fuel s p cs).1 := by
  rcases hm : (match raw with | none => s.root | some a => validateNode s a) with _ | p
  · left
    simp [refresh, hm]
  · by_cases hcomp : (s.heap p).children.isSome
    · by_cases hcp : cp = RefreshCancel.atResolve
      · left
        simp [refresh, hm, hcomp, hcp]
      · by_cases hcp2 : cp = RefreshCancel.atSetChildren
        · right
          refine ⟨p, ?_⟩
          simp [refresh, hm, hcomp, hcp, hcp2]
        · right
          refine ⟨p, ?_⟩
          simp [refresh, hm, hcomp, hcp, hcp2]
    · left
      simp [refresh, hm, hcomp]

/-- The Tree Core operations of claim C1: setting `root` (clears the Node
Store, installs the node, re-adds the subtree; its trailing fire-and-forget
refresh appears as a separate refresh op in the trace), setChildren,
refresh, and CompositeTreeNode.removeChild. -/
inductive TreeOp where
  | setRoot (fuel a : Nat)
  | setKids (fuel p : Nat) (cs : List Nat)
  | doRefresh (fuel : Nat) (raw : Option Nat) (cs : List Nat) (cp : RefreshCancel)
  | dropChild (p c : Nat)

def applyTreeOp (s : TreeState) : TreeOp → TreeState
  | .setRoot fuel a =>
    let r := addNode fuel s.heap (fun _ => none) a
    ⟨r.1, r.2, some a⟩
  | .setKids fuel p cs => (setChildren fuel s p cs).1
  | .doRefresh fuel raw cs cp => (refresh fuel s raw cs cp).1
  | .dropChild p c => ⟨removeChild s.heap p c, s.store, s.root⟩

def runTreeOps (s : TreeState) : List TreeOp → TreeState
  | [] => s
  | op :: ops => runTreeOps (applyTreeOp s op) ops

/-- The witness invariant threaded through a trace: the root node is the
witness tree's root address, the heap's children arrays trace out the
witness, all links are consistent, addresses are distinct, and the root has
no parent. -/
def TreeInv (s : TreeState) (T : RTree) : Prop :=
  s.root = some T.addr ∧ T.shapeOk s.heap ∧ T.linkOk s.heap ∧ T.addrs.Nodup ∧
    (s.heap T.addr).parent = none

/-- Well-formedness of one operation against the current witness tree `T`,
yielding the next witness: the side conditions under which the Tree Core is
used (enough fuel for the finite structure at hand, object graphs that are
trees — distinct addresses — and new child arrays that are themselves
well-formed forests disjoint from the kept nodes). -/
inductive WfStep (s : TreeState) (T : RTree) : TreeOp → RTree → Prop where
  | setRoot (fuel : Nat) (T2 : RTree)
      (hfu : T2.fuelNeed ≤ fuel)
      (hsh2 : T2.shapeOk s.heap)
      (hnd2 : T2.addrs.Nodup)
      (hpar2 : (s.heap T2.addr).parent = none) :
      WfStep s T (.setRoot fuel T2.addr) T2
  | setKidsFail (fuel p : Nat) (cs : List Nat)
      (hfail : (setChildren fuel s p cs).2 = none) :
      WfStep s T (.setKids fuel p cs) T
  | setKidsPass (fuel p r : Nat) (ts' : RForest)
      (hr : getRootNode fuel s.heap p = some r)
      (hv : ¬((s.store (s.heap r).nid).isSome ∧ s.store (s.heap r).nid ≠ some r))
      (hp : p ∈ T.addrs)
      (hfu : RTree.fuelNeed (RTree.node p ts') ≤ fuel)
      (hssh : ts'.shapeOk s.heap)
      (hnd2 : (p :: ts'.addrs).Nodup)
      (hndG : ((RTree.graft p ts' T).addrs).Nodup) :
      WfStep s T (.setKids fuel p ts'.roots) (RTree.graft p ts' T)
  | refreshNoop (fuel : Nat) (raw : Option Nat) (cs : List Nat) (cp : RefreshCancel)
      (hsame : (refresh fuel s raw cs cp).1 = s) :
      WfStep s T (.doRefresh fuel raw cs cp) T
  | refreshPass (fuel : Nat) (raw : Option Nat) (cp : RefreshCancel) (p r : Nat)
      (ts' : RForest)
      (hst : (refresh fuel s raw ts'.roots cp).1 = (setChildren fuel s p ts'.roots).1)
      (hr : getRootNode fuel s.heap p = some r)
      (hv : ¬((s.store (s.heap r).nid).isSome ∧ s.store (s.heap r).nid ≠ some r))
      (hp : p ∈ T.addrs)
      (hfu : RTree.fuelNeed (RTree.node p ts') ≤ fuel)
      (hssh : ts'.shapeOk s.heap)
      (hnd2 : (p :: ts'.addrs).Nodup)
      (hndG : ((RTree.graft p ts' T).addrs).Nodup) :
      WfStep s T (.doRefresh fuel raw ts'.roots cp) (RTree.graft p ts' T)
  | dropNoop (p c : Nat)
      (hnone : (getChildren s.heap p).findIdx?
        (fun x => (s.heap x).nid == (s.heap c).nid) = none) :
      WfStep s T (.dropChild p c) T
  | dropFound (p c i : Nat) (F : RForest)
      (hp : p ∈ T.addrs)
      (hroots : getChildren s.heap p = F.roots)
      (hf : (getChildren s.heap p).findIdx?
        (fun x => (s.heap x).nid == (s.heap c).nid) = some i)
      (hfi : F.roots.get? i = some c)
      (hFsh : F.shapeOk s.heap) (hFlk : F.linkOk s.heap)
      (hndG : ((RTree.graft p F T).addrs).Nodup) :
      WfStep s T (.dropChild p c) (RTree.graft p (RForest.eraseComp F i) T)

/-- A validation-passing setChildren call preserves the witness invariant,
grafting the new forest at the target. -/
theorem setKids_pass_inv (fuel : Nat) (s : TreeState) (p r : Nat) (ts' : RForest)
    (T : RTree) (hinv : TreeInv s T)
    (hr : getRootNode fuel s.heap p = some r)
    (hv : ¬((s.store (s.heap r).nid).isSome ∧ s.store (s.heap r).nid ≠ some r))
    (hp : p ∈ T.addrs)
    (hfu : RTree.fuelNeed (RTree.node p ts') ≤ fuel)
    (hssh : ts'.shapeOk s.heap)
    (hnd2 : (p :: ts'.addrs).Nodup)
    (hndG : ((RTree.graft p ts' T).addrs).Nodup) :
    TreeInv (setChildren fuel s p ts'.roots).1 (RTree.graft p ts' T) := by
  obtain ⟨hroot, hsh, hlk, hnd, hpar⟩ := hinv
  have hps := setChildren_pass fuel s p ts'.roots r hr hv
  obtain ⟨hgs, hgl, hfr, hpp⟩ := graft_install_ok fuel s.heap
    (removeNode fuel s.heap s.store p) p T ts' hsh hlk hnd hp hfu hssh hnd2 hndG
  rw [hps]
  refine ⟨?_, hgs, hgl, hndG, ?_⟩
  · show s.root = some (RTree.graft p ts' T).addr
    rw [graft_addr]
    exact hroot
  · show ((addNode fuel (hUpdate s.heap p { s.heap p with children := some ts'.roots })
        (removeNode fuel s.heap s.store p) p).1 (RTree.graft p ts' T).addr).parent = none
    rw [graft_addr]
    by_cases hrp : T.addr = p
    · rw [hrp, hpp, ← hrp]
      exact hpar
    · have hperm := graft_perm_t p ts' T hnd hp
      have hndSplit := (List.Perm.nodup_iff hperm).mp hndG
      have hdisjKF := (List.nodup_append.mp hndSplit).2.2
      have hradK : T.addr ∈ (RTree.graft p RForest.fnil T).addrs := by
        rw [← graft_addr p RForest.fnil T, addrs_eq_addr_cons]
        exact List.mem_cons_self _ _
      have hrnot : T.addr ∉ ts'.addrs := fun hx => hdisjKF hradK hx
      rw [hfr T.addr hrnot hrp]
      exact hpar

/-- Each well-formed step preserves the witness invariant. -/
theorem wfStep_inv (s : TreeState) (T : RTree) (op : TreeOp) (T2 : RTree)
    (hinv : TreeInv s T) (hstep : WfStep s T op T2) :
    TreeInv (applyTreeOp s op) T2 := by
  obtain ⟨hroot, hsh, hlk, hnd, hpar⟩ := hinv
  cases hstep with
  | setRoot fuel T2 hfu hsh2 hnd2 hpar2 =>
    obtain ⟨AN1, AN2, AN3⟩ := addNode_spec_t fuel s.heap (fun _ => none) T2 hfu hsh2 hnd2
    refine ⟨rfl, ?_, AN3, hnd2, ?_⟩
    · refine shapeOk_congr_t T2 s.heap _ ?_ hsh2
      intro b _
      exact (AN1 b).1
    · have hni : T2.addr ∉ T2.forest.addrs := by
        have h1 := hnd2
        rw [addrs_eq_addr_cons T2] at h1
        exact (List.nodup_cons.mp h1).1
      show ((addNode fuel s.heap (fun _ => none) T2.addr).1 T2.addr).parent = none
      rw [AN2 T2.addr hni]
      exact hpar2
  | setKidsFail fuel p cs hfail =>
    show TreeInv (setChildren fuel s p cs).1 T
    rw [setChildren_none fuel s p cs hfail]
    exact ⟨hroot, hsh, hlk, hnd, hpar⟩
  | setKidsPass fuel p r ts' hr hv hp hfu hssh hnd2 hndG =>
    exact setKids_pass_inv fuel s p r ts' T ⟨hroot, hsh, hlk, hnd, hpar⟩
      hr hv hp hfu hssh hnd2 hndG
  | refreshNoop fuel raw cs cp hsame =>
    show TreeInv (refresh fuel s raw cs cp).1 T
    rw [hsame]
    exact ⟨hroot, hsh, hlk, hnd, hpar⟩
  | refreshPass fuel raw cp p r ts' hst hr hv hp hfu hssh hnd2 hndG =>
    show TreeInv (refresh fuel s raw ts'.roots cp).1 _
    rw [hst]
    exact setKids_pass_inv fuel s p r ts' T ⟨hroot, hsh, hlk, hnd, hpar⟩
      hr hv hp hfu hssh hnd2 hndG
  | dropNoop p c hnone =>
    show TreeInv ⟨removeChild s.heap p c, s.store, s.root⟩ T
    rw [removeChild_noop s.heap p c hnone]
    exact ⟨hroot, hsh, hlk, hnd, hpar⟩
  | dropFound p c i F hp hroots hf hfi hFsh hFlk hndG =>
    obtain ⟨hgs, hgl, hfr, hpp, hndG'⟩ := removeChild_graft_ok s.heap p c T F i
      hsh hlk hnd hp hroots hf hfi hFsh hFlk hndG
    refine ⟨?_, hgs, hgl, hndG', ?_⟩
    · show s.root = some (RTree.graft p (RForest.eraseComp F i) T).addr
      rw [graft_addr]
      exact hroot
    · show ((removeChild s.heap p c)
        (RTree.graft p (RForest.eraseComp F i) T).addr).parent = none
      rw [graft_addr]
      by_cases hrp : T.addr = p
      · rw [hrp, hpp, ← hrp]
        exact hpar
      · have hperm := graft_perm_t p F T hnd hp
        have hndSplit := (List.Perm.nodup_iff hperm).mp hndG
        have hdisjKF := (List.nodup_append.mp hndSplit).2.2
        have hradK : T.addr ∈ (RTree.graft p RForest.fnil T).addrs := by
          rw [← graft_addr p RForest.fnil T, addrs_eq_addr_cons]
          exact List.mem_cons_self _ _
        have hrnot : T.addr ∉ F.addrs := fun hx => hdisjKF hradK hx
        rw [hfr T.addr hrnot hrp]
        exact hpar

/-- A whole trace of well-formed operations, with the witness threaded. -/
def WfOps : TreeState → RTree → List TreeOp → Prop
  | _, _, [] => True
  | s, T, op :: ops => ∃ T2, WfStep s T op T2 ∧ WfOps (applyTreeOp s op) T2 ops

theorem mem_of_reachable (T : RTree) (h : Heap) (hsh : T.shapeOk h) :
    ∀ a, Reachable h T.addr a → a ∈ T.addrs := by
  intro a hr
  induction hr with
  | root =>
    rw [addrs_eq_addr_cons]
    exact List.mem_cons_self _ _
  | child hp hc ih => exact children_mem_addrs_t T h hsh _ ih _ hc

/-- Claim C1's structural invariant on the program state: the Node Store's
root has no parent; every other node reachable from it through children
arrays occurs exactly once in its (reachable) parent's children array; and
every reachable node's children carry previousSibling/nextSibling equal to
the adjacent entries of the children array (none at the ends). -/
def StructInv (s : TreeState) : Prop :=
  ∀ r, s.root = some r →
    (s.heap r).parent = none ∧
    (∀ a, Reachable s.heap r a → a ≠ r →
      ∃ p, Reachable s.heap r p ∧ (s.heap a).parent = some p ∧
        (getChildren s.heap p).count a = 1) ∧
    (∀ p, Reachable s.heap r p → sibList s.heap p (getChildren s.heap p))

theorem treeInv_structInv (s : TreeState) (T : RTree) (hinv : TreeInv s T) :
    StructInv s := by
  obtain ⟨hroot, hsh, hlk, hnd, hpar⟩ := hinv
  intro r hr
  have hrT : r = T.addr := by
    rw [hroot] at hr
    exact (Option.some.inj hr).symm
  subst hrT
  refine ⟨hpar, ?_, ?_⟩
  · intro a hra hne
    have ham : a ∈ T.addrs := mem_of_reachable T s.heap hsh a hra
    obtain ⟨p, hpm, hppar, hcount⟩ := parent_of_member_t T s.heap hsh hlk hnd a ham hne
    exact ⟨p, reachable_of_mem_t T s.heap T.addr hsh rfl p hpm, hppar, hcount⟩
  · intro p hrp
    exact sib_at_member_t T s.heap hsh hlk p (mem_of_reachable T s.heap hsh p hrp)

/-- C1: Tree structural invariant — after any sequence of well-formed Tree
Core operations (setting `root`, refresh/setChildren installing a new child
array, CompositeTreeNode.removeChild) starting from a state consistent with
a witness tree, the claimed invariant holds of the resulting state: exactly
one reachable node has `parent = none` (the root); every other reachable
node occurs exactly once in its (reachable) parent's children array; and
every node's previousSibling/nextSibling fields equal the nodes at the
adjacent indices of the parent's children array (none at the ends). -/
theorem tree_structural_invariant (s : TreeState) (T : RTree) (ops : List TreeOp)
    (hinv : TreeInv s T) (hwf : WfOps s T ops) :
    StructInv (runTreeOps s ops) := by
  induction ops generalizing s T with
  | nil => exact treeInv_structInv s T hinv
  | cons op ops ih =>
    obtain ⟨T2, hstep, hrest⟩ := hwf
    exact ih (applyTreeOp s op) T2 (wfStep_inv s T op T2 hinv hstep) hrest

theorem sibList_nil (h : Heap) (p : Nat) : sibList h p [] :=
  fun _ c hic => absurd hic (by simp)

/-- Root 10 with children 21 and 22; node ids equal addresses. -/
def cexTreeHeap : Heap := fun a =>
  if a = 10 then ⟨10, none, none, none, some [21, 22]⟩
  else if a = 21 then ⟨21, some 10, none, some 22, none⟩
  else if a = 22 then ⟨22, some 10, some 21, none, none⟩
  else ⟨0, none, none, none, none⟩

def cexTreeOkState : TreeState :=
  ⟨cexTreeHeap,
    fun i => if i = 10 then some 10 else if i = 21 then some 21
      else if i = 22 then some 22 else none,
    some 10⟩

def cexF : RForest := .fcons (.node 21 .fnil) (.fcons (.node 22 .fnil) .fnil)

def cexT : RTree := .node 10 cexF

theorem cexSibRoot : sibList cexTreeHeap 10 [21, 22] := by
  intro i c hic
  match i, hic with
  | 0, hic =>
    have hc : c = 21 := by simpa using hic.symm
    subst hc
    exact ⟨rfl, rfl, rfl⟩
  | 1, hic =>
    have hc : c = 22 := by simpa using hic.symm
    subst hc
    exact ⟨rfl, rfl, rfl⟩
  | n + 2, hic => exact absurd hic (by simp)

theorem tree_structural_invariant_witness :
    StructInv (runTreeOps cexTreeOkState [TreeOp.dropChild 10 21]) := by
  refine tree_structural_invariant cexTreeOkState cexT [TreeOp.dropChild 10 21] ?_ ?_
  · exact ⟨rfl, ⟨rfl, ⟨rfl, trivial⟩, ⟨rfl, trivial⟩, trivial⟩,
      ⟨cexSibRoot, ⟨sibList_nil _ _, trivial⟩, ⟨sibList_nil _ _, trivial⟩, trivial⟩,
      by decide, rfl⟩
  · refine ⟨RTree.graft 10 (RForest.eraseComp cexF 0) cexT, ?_, trivial⟩
    exact WfStep.dropFound 10 21 0 cexF (by decide) rfl (by decide) (by decide)
      ⟨⟨rfl, trivial⟩, ⟨rfl, trivial⟩, trivial⟩
      ⟨⟨sibList_nil _ _, trivial⟩, ⟨sibList_nil _ _, trivial⟩, trivial⟩
      (by decide)
